import Mathlib

/-!
Verification of the quote-server core (`src/server.js`): the canonical
fingerprinter (`stableStringify`), the download-token codec
(`signDownloadToken` / `verifyDownloadToken`), the duplicate/idempotency
cache (`recentRequests` / `sentRecords` / `sentRecipients` maps and the
periodic sweep), the `/send-quote` delivery orchestrator, the `/send-quote`
API-key gate, and the `/download-devis/:name` route.

The JavaScript source is shallowly embedded: JSON values are an inductive
type, the module-level `Map`s become an explicit state record threaded
through a pure handler function, external collaborators (SMTP transport,
the EJS/Puppeteer render pipeline, the filesystem) are boolean outcome
oracles, and `crypto.createHmac('sha256', ...)` is modelled by a concrete
deterministic keyed digest (the development relies only on the digest
being a deterministic function of key and message with byte-range output,
never on any cryptographic property).
-/

namespace QuoteServer

/-! ## JSON values

The request bodies handled by `express.json()`. Cyclic references cannot
arise in an inductive value, so the `WeakSet` cycle guard of
`stableStringify` is vacuous in the model. -/

inductive Json where
  | null
  | bool (b : Bool)
  | num (n : Int)
  | str (s : String)
  | arr (xs : List Json)
  | obj (fields : List (String × Json))
deriving Repr

/-- JavaScript truthiness of a JSON value: `null`, `false`, `0` and the
empty string are falsy; arrays and objects (even empty) are truthy. -/
def jsTruthy : Json → Bool
  | .null => false
  | .bool b => b
  | .num n => n != 0
  | .str s => s ≠ ""
  | .arr _ => true
  | .obj _ => true

/-- Property access `v[k]` on a JSON value: on objects the LAST binding of
a key wins (as in a JavaScript object literal / `JSON.parse`); on
non-objects every key reads as undefined (modelled as `null`, which has
the same truthiness). -/
def getField : Json → String → Json
  | .obj fs, k =>
      match fs.reverse.find? (fun kv => kv.1 = k) with
      | some kv => kv.2
      | none => .null
  | _, _ => .null

/-- Strict lexicographic order on character lists by code point: the
string comparison underlying the default `Array.prototype.sort()`
comparator used on `Object.keys(value)` (JavaScript compares UTF-16 code
units; on the basic multilingual plane this coincides with code
points). -/
def charListLt : List Char → List Char → Bool
  | [], [] => false
  | [], _ :: _ => true
  | _ :: _, [] => false
  | a :: as, b :: bs =>
      if a.toNat < b.toNat then true
      else if b.toNat < a.toNat then false
      else charListLt as bs

/-- The (non-strict) key order used to sort object fields. -/
def keyRel (a b : String × Json) : Prop := charListLt b.1.data a.1.data = false

instance : DecidableRel keyRel := fun a b =>
  inferInstanceAs (Decidable (charListLt b.1.data a.1.data = false))

/-- `Object.keys(value).sort()` on a field list (src/server.js line 117):
the key-sorted permutation of the fields. The engine's sort algorithm is
unspecified; the model uses insertion sort, whose result is the sorted
permutation. -/
def sortPairs (fs : List (String × Json)) : List (String × Json) :=
  fs.insertionSort keyRel

mutual
/-- Nesting depth of a JSON value (used only as recursion fuel for
`canonicalize`). -/
def jsonDepth : Json → Nat
  | .null => 1
  | .bool _ => 1
  | .num _ => 1
  | .str _ => 1
  | .arr xs => jsonDepthList xs + 1
  | .obj fs => jsonDepthFields fs + 1

def jsonDepthList : List Json → Nat
  | [] => 0
  | x :: xs => max (jsonDepth x) (jsonDepthList xs)

def jsonDepthFields : List (String × Json) → Nat
  | [] => 0
  | kv :: fs => max (jsonDepth kv.2) (jsonDepthFields fs)
end

/-- The recursive `canonicalize` helper of `stableStringify`
(src/server.js, lines 110-125): arrays canonicalize each element
preserving order; objects have their keys sorted before recursing into
the values; scalars pass through. The explicit fuel (any number at least
the nesting depth, see `canonicalizeAux_fuel`) only makes the recursion
structural; `canonicalize` supplies enough. -/
def canonicalizeAux : Nat → Json → Json
  | _, .null => .null
  | _, .bool b => .bool b
  | _, .num n => .num n
  | _, .str s => .str s
  | 0, .arr xs => .arr xs
  | 0, .obj fs => .obj fs
  | fuel + 1, .arr xs => .arr (xs.map (canonicalizeAux fuel))
  | fuel + 1, .obj fs =>
      .obj ((sortPairs fs).map (fun kv => (kv.1, canonicalizeAux fuel kv.2)))

def canonicalize (j : Json) : Json := canonicalizeAux (jsonDepth j) j

/-- Decimal digit character. -/
def digitChar (m : Nat) : Char :=
  match m with
  | 0 => '0' | 1 => '1' | 2 => '2' | 3 => '3' | 4 => '4'
  | 5 => '5' | 6 => '6' | 7 => '7' | 8 => '8' | _ => '9'

/-- Decimal digits, most significant first; `fuel` bounds the number of
digits (any fuel above the value itself is enough). -/
def natDigitsAux : Nat → Nat → List Char
  | 0, _ => []
  | fuel + 1, n =>
      if n < 10 then [digitChar (n % 10)]
      else natDigitsAux fuel (n / 10) ++ [digitChar (n % 10)]

/-- Decimal digits of a natural number, most significant first. -/
def natDigits (n : Nat) : List Char := natDigitsAux (n + 1) n

/-- `JSON.stringify` rendering of an integer (JavaScript prints integral
numbers without a decimal point). -/
def intToString (n : Int) : String :=
  if n < 0 then "-" ++ String.mk (natDigits n.natAbs)
  else String.mk (natDigits n.natAbs)

/-- Comma-join, as in `JSON.stringify` of arrays/objects. -/
def joinComma : List String → String
  | [] => ""
  | [s] => s
  | s :: rest => s ++ "," ++ joinComma rest

mutual
/-- `JSON.stringify` of a (canonical) JSON value. String escaping is
modelled for plain strings (no `"` or backslash, the only payloads the
claims exercise); `JSON.stringify` would additionally escape those. -/
def jsonToString : Json → String
  | .null => "null"
  | .bool true => "true"
  | .bool false => "false"
  | .num n => intToString n
  | .str s => "\"" ++ s ++ "\""
  | .arr xs => "[" ++ joinComma (jsonArrStrings xs) ++ "]"
  | .obj fs => "\x7b" ++ joinComma (jsonObjStrings fs) ++ "\x7d"

def jsonArrStrings : List Json → List String
  | [] => []
  | x :: xs => jsonToString x :: jsonArrStrings xs

def jsonObjStrings : List (String × Json) → List String
  | [] => []
  | kv :: fs => ("\"" ++ kv.1 ++ "\":" ++ jsonToString kv.2) :: jsonObjStrings fs
end

/-- `stableStringify` (src/server.js, lines 108-127): canonicalize, then
serialize deterministically. -/
def stableStringify (j : Json) : String := jsonToString (canonicalize j)

end QuoteServer

namespace QuoteServer

/-! ## Bytes, base64url, keyed digest

`Buffer.from(string)` / `Buffer.toString()` are modelled for ASCII
content: a byte list is the list of character codes (every string the
claims exercise is ASCII, where UTF-8 is the identity on codes). -/

def strBytes (s : String) : List Nat := s.data.map Char.toNat

def bytesToStr (bs : List Nat) : String := String.mk (bs.map Char.ofNat)

/-- Pack bytes into base64 sextets (3 bytes to 4 sextets, with the
standard partial-block handling). -/
def bytesToSextets : List Nat → List Nat
  | b1 :: b2 :: b3 :: rest =>
      (b1 / 4) :: ((b1 % 4) * 16 + b2 / 16) :: ((b2 % 16) * 4 + b3 / 64) :: (b3 % 64)
        :: bytesToSextets rest
  | [b1, b2] => [b1 / 4, (b1 % 4) * 16 + b2 / 16, (b2 % 16) * 4]
  | [b1] => [b1 / 4, (b1 % 4) * 16]
  | [] => []

/-- Unpack base64 sextets back into bytes (4 sextets to 3 bytes; a
trailing partial block contributes its whole bytes). -/
def sextetsToBytes : List Nat → List Nat
  | s1 :: s2 :: s3 :: s4 :: rest =>
      (s1 * 4 + s2 / 16) :: ((s2 % 16) * 16 + s3 / 4) :: ((s3 % 4) * 64 + s4)
        :: sextetsToBytes rest
  | [s1, s2, s3] => [s1 * 4 + s2 / 16, (s2 % 16) * 16 + s3 / 4]
  | [s1, s2] => [s1 * 4 + s2 / 16]
  | _ => []

/-- Code point of the base64url character for a sextet (`A-Z a-z 0-9 - _`,
i.e. the standard alphabet after the `+` to `-` and `/` to `_`
replacements of src/server.js lines 97-99). -/
def sextetCode (s : Nat) : Nat :=
  if s < 26 then 65 + s
  else if s < 52 then 71 + s
  else if s < 62 then s - 4
  else if s = 62 then 45
  else 95

def sextetChar (s : Nat) : Char := Char.ofNat (sextetCode s)

/-- Inverse character table; `=` and any non-alphabet character decode to
`none` (ignored, as `Buffer.from(_, 'base64')` ignores them). -/
def charSextet (c : Char) : Option Nat :=
  let n := c.toNat
  if 65 ≤ n ∧ n ≤ 90 then some (n - 65)
  else if 97 ≤ n ∧ n ≤ 122 then some (n - 71)
  else if 48 ≤ n ∧ n ≤ 57 then some (n + 4)
  else if n = 45 then some 62
  else if n = 95 then some 63
  else none

/-- `base64UrlEncode` (src/server.js lines 97-99): standard base64 with
`=` padding stripped and `+` `/` mapped to `-` `_`. The source pads and
then strips the padding; the model emits the unpadded form directly and
the decoder correspondingly ignores `=`. -/
def base64UrlEncode (bs : List Nat) : String :=
  String.mk ((bytesToSextets bs).map sextetChar)

/-- `base64UrlDecode` (src/server.js lines 100-105): map `-` `_` back,
re-pad, base64-decode, and read the bytes as a string. -/
def base64UrlDecode (s : String) : String :=
  bytesToStr (sextetsToBytes (s.data.filterMap charSextet))

/-- Model of `crypto.createHmac('sha256', secret).update(msg).digest()`
(an external library collaborator): a concrete deterministic keyed digest
of 32 bytes. The development relies only on the digest being a
deterministic function of key and message whose output bytes are < 256 —
no cryptographic property is assumed or used. -/
def hmacSha256 (secret : String) (msg : List Nat) : List Nat :=
  let data := strBytes secret ++ msg
  (List.range 32).map (fun i =>
    (data.foldl (fun a b => a * 31 + b + 1) (i + 7)) % 256)

def nibbleChar (n : Nat) : Char :=
  match n with
  | 0 => '0' | 1 => '1' | 2 => '2' | 3 => '3' | 4 => '4'
  | 5 => '5' | 6 => '6' | 7 => '7' | 8 => '8' | 9 => '9'
  | 10 => 'a' | 11 => 'b' | 12 => 'c' | 13 => 'd' | 14 => 'e' | _ => 'f'

/-- `.digest('hex')` of a byte list. -/
def hexOfBytes (bs : List Nat) : String :=
  String.mk ((bs.map (fun b => [nibbleChar (b / 16 % 16), nibbleChar (b % 16)])).flatten)

/-- `req.body || \x7b\x7d` (src/server.js line 197): a missing or falsy
body is replaced by the empty object before fingerprinting. -/
def jsBodyOrEmpty : Option Json → Json
  | none => .obj []
  | some j => if jsTruthy j then j else .obj []

/-- The request fingerprint `bodySig` (src/server.js line 198): hex HMAC
of the stable stringification, keyed with `DOWNLOAD_TOKEN_SECRET`. -/
def fingerprintHex (secret : String) (j : Json) : String :=
  hexOfBytes (hmacSha256 secret (strBytes (stableStringify j)))

def bodySigOf (secret : String) (body : Option Json) : String :=
  fingerprintHex secret (jsBodyOrEmpty body)

/-! ## Download-token codec (src/server.js lines 129-154) -/

structure TokenPayload where
  name : String
  exp : Option Nat
deriving DecidableEq, Repr

/-- `JSON.stringify` of the token payload object, keys in insertion order
(`name` then `exp`); a payload without expiry serializes without the
`exp` member. Modelled for plain ASCII names (no escaping). -/
def stringifyPayload (p : TokenPayload) : String :=
  match p.exp with
  | some e => "\x7b\"name\":\"" ++ p.name ++ "\",\"exp\":" ++ String.mk (natDigits e) ++ "\x7d"
  | none => "\x7b\"name\":\"" ++ p.name ++ "\"\x7d"

/-- Consume an expected literal, returning the remainder. -/
def dropLead : List Char → List Char → Option (List Char)
  | [], cs => some cs
  | _ :: _, [] => none
  | l :: ls, c :: cs => if c = l then dropLead ls cs else none

/-- Scan a string body up to the closing quote. -/
def scanStr : List Char → Option (List Char × List Char)
  | [] => none
  | c :: cs =>
      if c = '"' then some ([], cs)
      else (scanStr cs).map (fun p => (c :: p.1, p.2))

/-- Maximal leading digit run. -/
def scanDigits : List Char → List Char × List Char
  | [] => ([], [])
  | c :: cs =>
      if c.isDigit then
        let p := scanDigits cs
        (c :: p.1, p.2)
      else ([], c :: cs)

def digitsVal (ds : List Char) : Nat :=
  ds.foldl (fun a c => a * 10 + (c.toNat - 48)) 0

/-- `JSON.parse` specialised to the token-payload wire format produced by
`stringifyPayload`; any other input fails (as a parse error does in the
source's try/catch). -/
def parsePayload (s : String) : Option TokenPayload :=
  match dropLead "\x7b\"name\":\"".data s.data with
  | none => none
  | some r1 =>
      match scanStr r1 with
      | none => none
      | some (nm, r2) =>
          if r2 = ['\x7d'] then some ⟨String.mk nm, none⟩
          else
            match dropLead ",\"exp\":".data r2 with
            | none => none
            | some r3 =>
                let p := scanDigits r3
                if p.1.isEmpty then none
                else if p.2 = ['\x7d'] then some ⟨String.mk nm, some (digitsVal p.1)⟩
                else none

/-- `token.split('.')`. -/
def splitOnDot : List Char → List (List Char)
  | [] => [[]]
  | c :: rest =>
      if c = '.' then [] :: splitOnDot rest
      else
        match splitOnDot rest with
        | [] => [[c]]
        | h :: t => (c :: h) :: t

/-- `signDownloadToken` (src/server.js lines 129-134): base64url the JSON
payload, MAC it, and join with a dot. -/
def signDownloadToken (secret : String) (p : TokenPayload) : String :=
  let payloadB64 := base64UrlEncode (strBytes (stringifyPayload p))
  let mac := base64UrlEncode (hmacSha256 secret (strBytes payloadB64))
  payloadB64 ++ "." ++ mac

/-- `verifyDownloadToken` (src/server.js lines 136-154): split on `.`,
reject unless exactly two parts, recompute and compare the MAC
(`timingSafeEqual` modelled as equality), decode and parse the payload,
then fail closed unless `payload.exp` is truthy and not below `now`. -/
def verifyDownloadToken (secret : String) (token : String) (now : Nat) : Option TokenPayload :=
  match splitOnDot token.data with
  | [payloadB64, mac] =>
      let pb64 := String.mk payloadB64
      let expectedMac := base64UrlEncode (hmacSha256 secret (strBytes pb64))
      if String.mk mac ≠ expectedMac then none
      else
        match parsePayload (base64UrlDecode pb64) with
        | none => none
        | some payload =>
            match payload.exp with
            | none => none
            | some e => if e = 0 || e < now then none else some payload
  | _ => none

end QuoteServer

namespace QuoteServer

/-! ## Codec correctness lemmas -/

theorem sextetsToBytes_bytesToSextets (bs : List Nat) (h : ∀ b ∈ bs, b < 256) :
    sextetsToBytes (bytesToSextets bs) = bs := by
  induction bs using bytesToSextets.induct with
  | case1 b1 b2 b3 rest ih =>
      have h1 : b1 < 256 := h b1 (by simp)
      have h2 : b2 < 256 := h b2 (by simp)
      have h3 : b3 < 256 := h b3 (by simp)
      have hrest : ∀ b ∈ rest, b < 256 := fun b hb => h b (by simp [hb])
      simp only [bytesToSextets, sextetsToBytes, ih hrest, List.cons.injEq]
      refine ⟨by omega, by omega, by omega, trivial⟩
  | case2 b1 b2 =>
      have h1 : b1 < 256 := h b1 (by simp)
      have h2 : b2 < 256 := h b2 (by simp)
      simp only [bytesToSextets, sextetsToBytes, List.cons.injEq]
      refine ⟨by omega, by omega, trivial⟩
  | case3 b1 =>
      have h1 : b1 < 256 := h b1 (by simp)
      simp only [bytesToSextets, sextetsToBytes, List.cons.injEq]
      refine ⟨by omega, trivial⟩
  | case4 => rfl

theorem bytesToSextets_lt (bs : List Nat) (h : ∀ b ∈ bs, b < 256) :
    ∀ s ∈ bytesToSextets bs, s < 64 := by
  induction bs using bytesToSextets.induct with
  | case1 b1 b2 b3 rest ih =>
      have h1 : b1 < 256 := h b1 (by simp)
      have h2 : b2 < 256 := h b2 (by simp)
      have h3 : b3 < 256 := h b3 (by simp)
      have hrest : ∀ b ∈ rest, b < 256 := fun b hb => h b (by simp [hb])
      intro s hs
      simp only [bytesToSextets, List.mem_cons] at hs
      rcases hs with rfl | rfl | rfl | rfl | hs
      · omega
      · omega
      · omega
      · omega
      · exact ih hrest s hs
  | case2 b1 b2 =>
      have h1 : b1 < 256 := h b1 (by simp)
      have h2 : b2 < 256 := h b2 (by simp)
      intro s hs
      simp only [bytesToSextets, List.mem_cons] at hs
      rcases hs with rfl | rfl | rfl | hs
      · omega
      · omega
      · omega
      · simp at hs
  | case3 b1 =>
      have h1 : b1 < 256 := h b1 (by simp)
      intro s hs
      simp only [bytesToSextets, List.mem_cons] at hs
      rcases hs with rfl | rfl | hs
      · omega
      · omega
      · simp at hs
  | case4 => intro s hs; simp [bytesToSextets] at hs

theorem charSextet_sextetChar (s : Nat) (h : s < 64) :
    charSextet (sextetChar s) = some s := by
  interval_cases s <;> rfl

theorem sextetChar_ne_dot (s : Nat) : sextetChar s ≠ '.' := by
  by_cases h : s < 64
  · interval_cases s <;> decide
  · have h1 : sextetCode s = 95 := by
      unfold sextetCode
      split_ifs <;> omega
    unfold sextetChar
    rw [h1]
    decide

theorem filterMap_charSextet (l : List Nat) (h : ∀ s ∈ l, s < 64) :
    (l.map sextetChar).filterMap charSextet = l := by
  induction l with
  | nil => rfl
  | cons s rest ih =>
      have hs : s < 64 := h s (by simp)
      have hrest : ∀ x ∈ rest, x < 64 := fun x hx => h x (by simp [hx])
      simp only [List.map_cons, List.filterMap_cons, charSextet_sextetChar s hs, ih hrest]

theorem bytesToStr_strBytes (s : String) : bytesToStr (strBytes s) = s := by
  unfold bytesToStr strBytes
  rw [List.map_map]
  have : (Char.ofNat ∘ Char.toNat) = id := by
    funext c
    exact Char.ofNat_toNat c
  rw [this, List.map_id]

theorem base64_roundtrip (bs : List Nat) (h : ∀ b ∈ bs, b < 256) :
    base64UrlDecode (base64UrlEncode bs) = bytesToStr bs := by
  unfold base64UrlDecode base64UrlEncode
  rw [show (String.mk ((bytesToSextets bs).map sextetChar)).data
        = (bytesToSextets bs).map sextetChar from rfl]
  rw [filterMap_charSextet _ (bytesToSextets_lt bs h)]
  rw [sextetsToBytes_bytesToSextets bs h]

/-- base64url output of a string of bytes contains no dot. -/
theorem base64UrlEncode_no_dot (bs : List Nat) : '.' ∉ (base64UrlEncode bs).data := by
  intro hmem
  rw [show (base64UrlEncode bs).data = (bytesToSextets bs).map sextetChar from rfl] at hmem
  rcases List.mem_map.mp hmem with ⟨s, _, hs⟩
  exact sextetChar_ne_dot s hs

theorem splitOnDot_cons (c : Char) (rest : List Char) :
    splitOnDot (c :: rest) =
      if c = '.' then [] :: splitOnDot rest
      else
        match splitOnDot rest with
        | [] => [[c]]
        | h :: t => (c :: h) :: t := rfl

theorem splitOnDot_no_dot (cs : List Char) (h : '.' ∉ cs) : splitOnDot cs = [cs] := by
  induction cs with
  | nil => rfl
  | cons c rest ih =>
      have hc : c ≠ '.' := fun hc => h (by simp [hc])
      have hrest : '.' ∉ rest := fun hr => h (by simp [hr])
      rw [splitOnDot_cons, if_neg hc, ih hrest]

theorem splitOnDot_append (a b : List Char) (h : '.' ∉ a) :
    splitOnDot (a ++ '.' :: b) = a :: splitOnDot b := by
  induction a with
  | nil =>
      rw [List.nil_append, splitOnDot_cons, if_pos rfl]
  | cons c rest ih =>
      have hc : c ≠ '.' := fun hc => h (by simp [hc])
      have hrest : '.' ∉ rest := fun hr => h (by simp [hr])
      rw [List.cons_append, splitOnDot_cons, if_neg hc, ih hrest]

end QuoteServer

namespace QuoteServer

/-! ## Token payload parser/serializer roundtrip -/

/-- Plain ASCII printable character, neither a quote nor a backslash:
the characters for which the modelled (escape-free) JSON string
serialization agrees with `JSON.stringify`. -/
def plainChar (c : Char) : Bool :=
  decide (32 ≤ c.toNat) && decide (c.toNat < 127) && c ≠ '"' && c ≠ '\\'

def plainStr (s : String) : Bool := s.data.all plainChar

theorem digitChar_isDigit (m : Nat) : (digitChar m).isDigit = true := by
  unfold digitChar
  split <;> decide

theorem digitChar_toNat_lt (m : Nat) : (digitChar m).toNat < 127 := by
  unfold digitChar
  split <;> decide

theorem digitChar_val (m : Nat) (h : m < 10) : (digitChar m).toNat - 48 = m := by
  interval_cases m <;> decide

theorem digitsVal_append_digit (a : List Char) (c : Char) :
    digitsVal (a ++ [c]) = digitsVal a * 10 + (c.toNat - 48) := by
  unfold digitsVal
  rw [List.foldl_append]
  rfl

theorem natDigitsAux_spec : ∀ fuel n, n < fuel →
    (∀ c ∈ natDigitsAux fuel n, c.isDigit = true ∧ c.toNat < 127)
    ∧ digitsVal (natDigitsAux fuel n) = n ∧ natDigitsAux fuel n ≠ [] := by
  intro fuel
  induction fuel with
  | zero => intro n h; omega
  | succ fuel ih =>
      intro n h
      by_cases h10 : n < 10
      · rw [natDigitsAux, if_pos h10]
        refine ⟨?_, ?_, by simp⟩
        · intro c hc
          rw [List.mem_singleton.mp hc]
          exact ⟨digitChar_isDigit _, digitChar_toNat_lt _⟩
        · show digitsVal ([] ++ [digitChar (n % 10)]) = n
          rw [digitsVal_append_digit, digitChar_val _ (Nat.mod_lt _ (by omega))]
          show 0 * 10 + n % 10 = n
          omega
      · have hd : n / 10 < fuel := by
          have := Nat.div_lt_self (show 0 < n by omega) (show 1 < 10 by omega)
          omega
        have hrec := ih (n / 10) hd
        rw [natDigitsAux, if_neg h10]
        refine ⟨?_, ?_, by simp⟩
        · intro c hc
          rcases List.mem_append.mp hc with hc | hc
          · exact hrec.1 c hc
          · rw [List.mem_singleton.mp hc]
            exact ⟨digitChar_isDigit _, digitChar_toNat_lt _⟩
        · rw [digitsVal_append_digit, hrec.2.1,
            digitChar_val _ (Nat.mod_lt _ (by omega))]
          omega

theorem digitsVal_natDigits (n : Nat) : digitsVal (natDigits n) = n :=
  (natDigitsAux_spec (n + 1) n (by omega)).2.1

theorem natDigits_digits (n : Nat) : ∀ c ∈ natDigits n, c.isDigit = true :=
  fun c hc => ((natDigitsAux_spec (n + 1) n (by omega)).1 c hc).1

theorem natDigits_ne_nil (n : Nat) : natDigits n ≠ [] :=
  (natDigitsAux_spec (n + 1) n (by omega)).2.2

theorem dropLead_append (l r : List Char) : dropLead l (l ++ r) = some r := by
  induction l with
  | nil => rfl
  | cons c ls ih =>
      show dropLead (c :: ls) (c :: (ls ++ r)) = some r
      rw [dropLead]
      rw [if_pos rfl]
      exact ih

theorem scanStr_append (a r : List Char) (h : '"' ∉ a) :
    scanStr (a ++ '"' :: r) = some (a, r) := by
  induction a with
  | nil =>
      show scanStr ('"' :: r) = some ([], r)
      rw [scanStr, if_pos rfl]
  | cons c cs ih =>
      have hc : c ≠ '"' := fun hc => h (by simp [hc])
      have hcs : '"' ∉ cs := fun hcs => h (by simp [hcs])
      show scanStr (c :: (cs ++ '"' :: r)) = some (c :: cs, r)
      rw [scanStr, if_neg hc, ih hcs]
      rfl

theorem scanDigits_append (ds r : List Char) (hds : ∀ c ∈ ds, c.isDigit = true)
    (hr : ∀ c, r.head? = some c → c.isDigit = false) :
    scanDigits (ds ++ r) = (ds, r) := by
  induction ds with
  | nil =>
      rw [List.nil_append]
      cases r with
      | nil => rfl
      | cons c t =>
          rw [scanDigits, if_neg]
          rw [hr c rfl]
          simp
  | cons c cs ih =>
      have hc : c.isDigit = true := hds c (by simp)
      have hcs : ∀ x ∈ cs, x.isDigit = true := fun x hx => hds x (by simp [hx])
      show scanDigits (c :: (cs ++ r)) = (c :: cs, r)
      rw [scanDigits, if_pos hc, ih hcs]

theorem stringMk_data (s : String) : String.mk s.data = s := rfl

theorem parsePayload_stringifyPayload (p : TokenPayload) (hp : plainStr p.name = true) :
    parsePayload (stringifyPayload p) = some p := by
  have hq : '"' ∉ p.name.data := by
    intro hmem
    have := List.all_eq_true.mp hp _ hmem
    simp [plainChar] at this
  cases p with
  | mk nm ex =>
      cases ex with
      | none =>
          have hdata : (stringifyPayload ⟨nm, none⟩).data
              = "\x7b\"name\":\"".data ++ (nm.data ++ '"' :: ['\x7d']) := by
            show ("\x7b\"name\":\"" ++ nm ++ "\"\x7d").data = _
            rw [String.data_append, String.data_append]
            rfl
          simp only [parsePayload, hdata, dropLead_append]
          rw [scanStr_append _ _ hq]
          simp [stringMk_data]
      | some e =>
          have hdata : (stringifyPayload ⟨nm, some e⟩).data
              = "\x7b\"name\":\"".data
                  ++ (nm.data ++ '"' :: (",\"exp\":".data ++ (natDigits e ++ ['\x7d']))) := by
            show ("\x7b\"name\":\"" ++ nm ++ "\",\"exp\":"
                ++ String.mk (natDigits e) ++ "\x7d").data = _
            rw [String.data_append, String.data_append, String.data_append,
              String.data_append]
            show "\x7b\"name\":\"".data ++ nm.data ++ ('"' :: ",\"exp\":".data)
                ++ natDigits e ++ ['\x7d'] = _
            simp [List.append_assoc]
          simp only [parsePayload, hdata, dropLead_append]
          rw [scanStr_append _ _ hq]
          have hne : ",\"exp\":".data ++ (natDigits e ++ ['\x7d']) ≠ ['\x7d'] := by simp
          simp only [hne, if_neg, if_false, dropLead_append]
          rw [scanDigits_append _ _ (natDigits_digits e)
            (by intro c hc; simp at hc; subst hc; rfl)]
          have hemp : (natDigits e).isEmpty = false := by
            simpa [List.isEmpty_iff] using natDigits_ne_nil e
          simp [hemp, digitsVal_natDigits, stringMk_data]

end QuoteServer

namespace QuoteServer

/-! ## Sign/verify roundtrip -/

theorem natDigits_toNat_lt (n : Nat) : ∀ c ∈ natDigits n, c.toNat < 127 :=
  fun c hc => ((natDigitsAux_spec (n + 1) n (by omega)).1 c hc).2

theorem stringifyPayload_ascii (p : TokenPayload) (hp : plainStr p.name = true) :
    ∀ c ∈ (stringifyPayload p).data, c.toNat < 256 := by
  have hname : ∀ c ∈ p.name.data, c.toNat < 256 := by
    intro c hc
    have := List.all_eq_true.mp hp _ hc
    simp only [plainChar, Bool.and_eq_true, decide_eq_true_eq] at this
    omega
  intro c hc
  cases p with
  | mk nm ex =>
      cases ex with
      | none =>
          rw [show (stringifyPayload ⟨nm, none⟩)
              = "\x7b\"name\":\"" ++ nm ++ "\"\x7d" from rfl,
            String.data_append, String.data_append] at hc
          rcases List.mem_append.mp hc with hc | hc
          · rcases List.mem_append.mp hc with hc | hc
            · fin_cases hc <;> decide
            · exact hname c hc
          · fin_cases hc <;> decide
      | some e =>
          rw [show (stringifyPayload ⟨nm, some e⟩)
              = "\x7b\"name\":\"" ++ nm ++ "\",\"exp\":"
                  ++ String.mk (natDigits e) ++ "\x7d" from rfl,
            String.data_append, String.data_append, String.data_append,
            String.data_append] at hc
          rcases List.mem_append.mp hc with hc | hc
          · rcases List.mem_append.mp hc with hc | hc
            · rcases List.mem_append.mp hc with hc | hc
              · rcases List.mem_append.mp hc with hc | hc
                · fin_cases hc <;> decide
                · exact hname c hc
              · fin_cases hc <;> decide
            · have := natDigits_toNat_lt e c hc
              omega
          · fin_cases hc <;> decide

theorem strBytes_lt_of_ascii (s : String) (h : ∀ c ∈ s.data, c.toNat < 256) :
    ∀ b ∈ strBytes s, b < 256 := by
  intro b hb
  rcases List.mem_map.mp hb with ⟨c, hc, rfl⟩
  exact h c hc

theorem hmacSha256_lt (secret : String) (msg : List Nat) :
    ∀ b ∈ hmacSha256 secret msg, b < 256 := by
  intro b hb
  simp only [hmacSha256] at hb
  rcases List.mem_map.mp hb with ⟨i, _, rfl⟩
  exact Nat.mod_lt _ (by omega)

/-- Verifying a token produced by `signDownloadToken` reduces exactly to
the expiry test `!payload.exp || payload.exp < now`. -/
theorem verifyDownloadToken_signDownloadToken (secret : String) (p : TokenPayload)
    (now : Nat) (hp : plainStr p.name = true) :
    verifyDownloadToken secret (signDownloadToken secret p) now =
      match p.exp with
      | none => none
      | some e => if e = 0 || e < now then none else some p := by
  have hbytes : ∀ b ∈ strBytes (stringifyPayload p), b < 256 :=
    strBytes_lt_of_ascii _ (stringifyPayload_ascii p hp)
  unfold signDownloadToken verifyDownloadToken
  have hdata : ∀ a b : String, (a ++ "." ++ b).data = a.data ++ '.' :: b.data := by
    intro a b
    rw [String.data_append, String.data_append]
    simp [List.append_assoc]
  rw [hdata, splitOnDot_append _ _ (base64UrlEncode_no_dot _),
    splitOnDot_no_dot _ (base64UrlEncode_no_dot _)]
  simp only [stringMk_data]
  rw [if_neg (by simp)]
  rw [base64_roundtrip _ hbytes, bytesToStr_strBytes,
    parsePayload_stringifyPayload p hp]

end QuoteServer

namespace QuoteServer

/-! ## Duplicate/idempotency cache state and the send-quote orchestrator

The three module-level `Map`s (src/server.js lines 73-77) become an
explicit state record; `Map.get` / `Map.set` become association-list
lookup and insertion-order-preserving upsert, and a JavaScript `Set`
becomes an insertion-ordered duplicate-free list. -/

def lookupA {α : Type} (m : List (String × α)) (k : String) : Option α :=
  match m.find? (fun kv => kv.1 == k) with
  | some kv => some kv.2
  | none => none

def setA {α : Type} (m : List (String × α)) (k : String) (v : α) : List (String × α) :=
  if (m.find? (fun kv => kv.1 == k)).isSome then
    m.map (fun kv => if kv.1 == k then (k, v) else kv)
  else m ++ [(k, v)]

def setAdd (l : List String) (a : String) : List String :=
  if l.contains a then l else l ++ [a]

structure ServerState where
  recentRequests : List (String × Nat)
  sentRecords : List (String × Nat)
  sentRecipients : List (String × List String)
deriving Repr, DecidableEq

structure Config where
  secret : String
  window : Nat
  receiverEmail : Option String
  smtpUser : String
deriving Repr

/-- External collaborators: `renderOk = false` models the EJS/Puppeteer/
file-write pipeline throwing (lines 378-427); `sendOk a` models
`transporter.sendMail` to address `a` succeeding (throwing when false). -/
structure Oracles where
  renderOk : Bool
  sendOk : String → Bool

structure QuoteResp where
  status : Nat
  success : Bool
  duplicate : Bool
deriving Repr, DecidableEq

structure QuoteResult where
  resp : QuoteResp
  state : ServerState
  attempts : List (String × Bool)
deriving Repr, DecidableEq

/-- The duplicate-window test `prev && now - prev < DUPLICATE_WINDOW_SECONDS`
(lines 201, 207), with JavaScript number subtraction modelled on `Int`. -/
def withinWindow (window prev now : Nat) : Bool :=
  prev != 0 && decide ((now : Int) - (prev : Int) < (window : Int))

/-- `process.env.RECEIVER_EMAIL || SMTP_USER` (line 437): an unset or
empty env var falls back to the SMTP user. -/
def receiverOf (cfg : Config) : String :=
  match cfg.receiverEmail with
  | some s => if s = "" then cfg.smtpUser else s
  | none => cfg.smtpUser

/-- `s.split(',')` on the character list. -/
def splitComma : List Char → List (List Char)
  | [] => [[]]
  | c :: rest =>
      if c = ',' then [] :: splitComma rest
      else
        match splitComma rest with
        | [] => [[c]]
        | h :: t => (c :: h) :: t

/-- The whitespace class removed by `String.prototype.trim()` (the
common cases). -/
def isSpaceChar (c : Char) : Bool := c = ' ' || c = '\t' || c = '\n' || c = '\r'

/-- `s.trim()` on the character list. -/
def trimChars (cs : List Char) : List Char :=
  ((cs.dropWhile isSpaceChar).reverse.dropWhile isSpaceChar).reverse

/-- Line 439: split the raw receiver on commas, trim each part, drop
empties. -/
def receiverListOf (cfg : Config) : List String :=
  ((splitComma (receiverOf cfg).data).map (fun cs => String.mk (trimChars cs))).filter
    (fun s => s != "")

/-- The required-field check (line 215):
`!name || !email || !phone || !products || !Array.isArray(products) ||
products.length === 0`, by JavaScript truthiness. -/
def validBody (body : Json) : Bool :=
  jsTruthy (getField body "name") && jsTruthy (getField body "email")
    && jsTruthy (getField body "phone")
    && (match getField body "products" with
        | .arr xs => !xs.isEmpty
        | _ => false)

/-- The client address `(req.body && req.body.email) || email || null`
(line 538). Modelled for string-valued `email` fields: every claim
exercises a string email, and the validation only enforces truthiness; a
non-string truthy `email` would be handed to the mailer coerced, which
no claim covers. -/
def clientEmailOf (body : Json) : Option String :=
  match getField body "email" with
  | .str s => if s = "" then none else some s
  | _ => none

def recSetOf (st : ServerState) (sig : String) : List String :=
  (lookupA st.sentRecipients sig).getD []

/-- The admin send loop (lines 485-526): send individually, in order,
adding each recipient to the set after its successful send; a thrown
send error aborts the whole admin try-block (remaining admins are
skipped and the `sentRecords.set` of line 531 is not reached). Returns
the final set, the attempt log and whether the loop completed. -/
def adminLoop (sendOk : String → Bool) :
    List String → List String → List String × List (String × Bool) × Bool
  | [], recSet => (recSet, [], true)
  | a :: rest, recSet =>
      if sendOk a then
        let r := adminLoop sendOk rest (setAdd recSet a)
        (r.1, (a, true) :: r.2.1, r.2.2)
      else (recSet, [(a, false)], false)

/-- The `/send-quote` handler (src/server.js lines 193-627) past the API
key gate, as a pure function of the configuration, the collaborator
oracles, the cache state, the clock (`Math.floor(Date.now()/1000)`) and
the parsed body (`none` = no body). Produces the HTTP response (the JSON
bodies also carry message/error strings, not modelled), the next cache
state, and the ordered `sendMail` attempt log. -/
def sendQuote (cfg : Config) (orc : Oracles) (st : ServerState) (now : Nat)
    (body : Option Json) : QuoteResult :=
  let bodySig := bodySigOf cfg.secret body
  let dupRecent :=
    match lookupA st.recentRequests bodySig with
    | some prev => withinWindow cfg.window prev now
    | none => false
  if dupRecent then ⟨⟨202, true, true⟩, st, []⟩
  else
    let dupSent :=
      match lookupA st.sentRecords bodySig with
      | some prev => withinWindow cfg.window prev now
      | none => false
    if dupSent then ⟨⟨202, true, true⟩, st, []⟩
    else
      -- line 212: record the request footprint before validation
      let st1 : ServerState :=
        { st with recentRequests := setA st.recentRequests bodySig now }
      match body with
      | none => ⟨⟨500, false, false⟩, st1, []⟩       -- destructuring undefined throws
      | some .null => ⟨⟨500, false, false⟩, st1, []⟩ -- destructuring null throws
      | some bj =>
          if !(validBody bj) then ⟨⟨400, false, false⟩, st1, []⟩
          else if !orc.renderOk then ⟨⟨500, false, false⟩, st1, []⟩
          else
            let receiver := receiverOf cfg
            let receiverList := receiverListOf cfg
            let recSet0 := recSetOf st1 bodySig
            let toSendAdmins := receiverList.filter (fun r => !(recSet0.contains r))
            let aRes := adminLoop orc.sendOk toSendAdmins recSet0
            let recSet1 := aRes.1
            let adminAttempts := aRes.2.1
            let adminOk := aRes.2.2
            let sent1 := if adminOk then setA st1.sentRecords bodySig now
                         else st1.sentRecords
            let st2 : ServerState :=
              { st1 with sentRecords := sent1,
                         sentRecipients := setA st1.sentRecipients bodySig recSet1 }
            match clientEmailOf bj with
            | some ce =>
                if ce != receiver then
                  if !(recSet1.contains ce) then
                    if orc.sendOk ce then
                      ⟨⟨200, true, false⟩,
                       { st2 with
                          sentRecipients :=
                            setA st2.sentRecipients bodySig (setAdd recSet1 ce),
                          sentRecords := setA st2.sentRecords bodySig now },
                       adminAttempts ++ [(ce, true)]⟩
                    else
                      ⟨⟨200, true, false⟩, st2, adminAttempts ++ [(ce, false)]⟩
                  else ⟨⟨200, true, false⟩, st2, adminAttempts⟩
                else
                  ⟨⟨200, true, false⟩,
                   { st2 with sentRecords := setA st2.sentRecords bodySig now },
                   adminAttempts⟩
            | none =>
                ⟨⟨200, true, false⟩,
                 { st2 with sentRecords := setA st2.sentRecords bodySig now },
                 adminAttempts⟩

/-- The periodic cleanup sweep (src/server.js lines 80-95): drop
RequestRecords and ProcessedRecords older than the window (JavaScript
subtraction on `Int`), then drop every RecipientSet whose ProcessedRecord
is no longer present. -/
def sweep (window now : Nat) (st : ServerState) : ServerState :=
  let rr := st.recentRequests.filter
    (fun p => !decide ((now : Int) - (p.2 : Int) > (window : Int)))
  let sr := st.sentRecords.filter
    (fun p => !decide ((now : Int) - (p.2 : Int) > (window : Int)))
  let rcp := st.sentRecipients.filter (fun p => (lookupA sr p.1).isSome)
  ⟨rr, sr, rcp⟩

/-- The `/send-quote` API-key middleware (src/server.js lines 176-183):
`!apiKey || clientKey !== apiKey` responds 401; returns `true` exactly
when the request passes through to the handler. -/
def apiKeyGate (serverKey : Option String) (clientKey : Option String) : Bool :=
  match serverKey with
  | none => false
  | some k => if k = "" then false else clientKey == some k

inductive DlResp where
  | unauthorized
  | forbidden
  | notFound
  | stream (name : String)
deriving Repr, DecidableEq

/-- `GET /download-devis/:name` (src/server.js lines 655-679).
`fileExists n` models `fs.access` on `generated-pdfs/n` succeeding;
`.stream n` models `res.download`; a missing or non-string `token` query
value is `none`. -/
def downloadDevis (secret : String) (now : Nat) (name : String)
    (token : Option String) (fileExists : String → Bool) : DlResp :=
  match token with
  | none => .unauthorized
  | some t =>
      match verifyDownloadToken secret t now with
      | none => .forbidden
      | some payload =>
          if payload.name != name then .forbidden
          else if fileExists name then .stream name
          else .notFound

/-- The download endpoint as the SPEC describes it (spec.md section 6,
"Download endpoint"), stated from the spec's words for comparison with
`downloadDevis`: missing token is unauthorized; the token must verify
(unexpired) and its embedded name must equal the path's artifact name,
otherwise forbidden; the artifact must exist in storage, otherwise
not-found; success streams the artifact. -/
def downloadSpecModel (secret : String) (now : Nat) (name : String)
    (token : Option String) (fileExists : String → Bool) : DlResp :=
  match token with
  | none => .unauthorized
  | some t =>
      if (verifyDownloadToken secret t now).map TokenPayload.name = some name then
        (if fileExists name then .stream name else .notFound)
      else .forbidden

end QuoteServer

namespace QuoteServer

/-! ## Structural equality up to key ordering -/

mutual
/-- Structural equality of JSON values up to object key ordering (the
relation quantified over in the spec's fingerprint property): scalars
must be equal, arrays are related pointwise in order, and object field
lists are related by a permutation that pairs fields with equal keys and
related values. -/
inductive KeyEquiv : Json → Json → Prop where
  | null : KeyEquiv .null .null
  | bool (b : Bool) : KeyEquiv (.bool b) (.bool b)
  | num (n : Int) : KeyEquiv (.num n) (.num n)
  | str (s : String) : KeyEquiv (.str s) (.str s)
  | arr {xs ys : List Json} : ArrEquiv xs ys → KeyEquiv (.arr xs) (.arr ys)
  | obj {fs gs : List (String × Json)} : FieldsPerm fs gs → KeyEquiv (.obj fs) (.obj gs)

/-- Pointwise `KeyEquiv` on lists. -/
inductive ArrEquiv : List Json → List Json → Prop where
  | nil : ArrEquiv [] []
  | cons {x y : Json} {xs ys : List Json} :
      KeyEquiv x y → ArrEquiv xs ys → ArrEquiv (x :: xs) (y :: ys)

/-- Permutation-with-related-values of field lists, in head-insertion
form: the head field is placed at an arbitrary position of the target
list. -/
inductive FieldsPerm : List (String × Json) → List (String × Json) → Prop where
  | nil : FieldsPerm [] []
  | cons (k : String) (v w : Json) (fs l r : List (String × Json)) :
      KeyEquiv v w → FieldsPerm fs (l ++ r) →
      FieldsPerm ((k, v) :: fs) (l ++ (k, w) :: r)
end

mutual
/-- Well-formed JSON value: every object, at every depth, has distinct
keys (guaranteed for values produced by `JSON.parse` from an express
request body). -/
def wfB : Json → Bool
  | .null => true
  | .bool _ => true
  | .num _ => true
  | .str _ => true
  | .arr xs => wfBList xs
  | .obj fs => decide ((fs.map Prod.fst).Nodup) && wfBFields fs

def wfBList : List Json → Bool
  | [] => true
  | x :: xs => wfB x && wfBList xs

def wfBFields : List (String × Json) → Bool
  | [] => true
  | kv :: fs => wfB kv.2 && wfBFields fs
end

theorem wfBList_mem : ∀ (xs : List Json), wfBList xs = true → ∀ x ∈ xs, wfB x = true := by
  intro xs
  induction xs with
  | nil => intro _ x hx; simp at hx
  | cons y ys ih =>
      intro h x hx
      rw [wfBList, Bool.and_eq_true] at h
      rcases List.mem_cons.mp hx with rfl | hx
      · exact h.1
      · exact ih h.2 x hx

theorem wfBFields_mem : ∀ (fs : List (String × Json)), wfBFields fs = true →
    ∀ kv ∈ fs, wfB kv.2 = true := by
  intro fs
  induction fs with
  | nil => intro _ kv hkv; simp at hkv
  | cons p ps ih =>
      intro h kv hkv
      rw [wfBFields, Bool.and_eq_true] at h
      rcases List.mem_cons.mp hkv with rfl | hkv
      · exact h.1
      · exact ih h.2 kv hkv

theorem wfB_arr_mem {xs : List Json} (h : wfB (.arr xs) = true) :
    ∀ x ∈ xs, wfB x = true := by
  rw [wfB] at h
  exact wfBList_mem xs h

theorem wfB_obj_nodup {fs : List (String × Json)} (h : wfB (.obj fs) = true) :
    (fs.map Prod.fst).Nodup := by
  rw [wfB, Bool.and_eq_true] at h
  exact of_decide_eq_true h.1

theorem wfB_obj_mem {fs : List (String × Json)} (h : wfB (.obj fs) = true) :
    ∀ kv ∈ fs, wfB kv.2 = true := by
  rw [wfB, Bool.and_eq_true] at h
  exact wfBFields_mem fs h.2

theorem sortPairs_perm (fs : List (String × Json)) : (sortPairs fs).Perm fs :=
  List.perm_insertionSort keyRel fs

theorem jsonDepthList_le (xs : List Json) : ∀ x ∈ xs, jsonDepth x ≤ jsonDepthList xs := by
  induction xs with
  | nil => intro x hx; simp at hx
  | cons y ys ih =>
      intro x hx
      rw [jsonDepthList]
      rcases List.mem_cons.mp hx with rfl | hx
      · exact le_max_left _ _
      · exact le_trans (ih x hx) (le_max_right _ _)

theorem jsonDepthFields_le (fs : List (String × Json)) :
    ∀ kv ∈ fs, jsonDepth kv.2 ≤ jsonDepthFields fs := by
  induction fs with
  | nil => intro kv hkv; simp at hkv
  | cons p ps ih =>
      intro kv hkv
      rw [jsonDepthFields]
      rcases List.mem_cons.mp hkv with rfl | hkv
      · exact le_max_left _ _
      · exact le_trans (ih kv hkv) (le_max_right _ _)

/-- `canonicalizeAux` is stable in the fuel once it covers the depth. -/
theorem canonicalizeAux_fuel : ∀ fuel j, jsonDepth j ≤ fuel →
    canonicalizeAux fuel j = canonicalize j := by
  intro fuel
  induction fuel using Nat.strong_induction_on with
  | _ fuel ih =>
      intro j h
      cases j with
      | null => cases fuel <;> rfl
      | bool b => cases fuel <;> rfl
      | num n => cases fuel <;> rfl
      | str s => cases fuel <;> rfl
      | arr xs =>
          cases fuel with
          | zero => rw [jsonDepth] at h; omega
          | succ fuel =>
              rw [jsonDepth] at h
              show Json.arr (xs.map (canonicalizeAux fuel)) = canonicalize (.arr xs)
              rw [show canonicalize (.arr xs)
                  = Json.arr (xs.map (canonicalizeAux (jsonDepthList xs))) by
                rw [canonicalize, jsonDepth]
                rfl]
              congr 1
              apply List.map_congr_left
              intro x hx
              have hdx := jsonDepthList_le xs x hx
              rw [ih fuel (by omega) x (by omega),
                ih (jsonDepthList xs) (by omega) x (by omega)]
      | obj fs =>
          cases fuel with
          | zero => rw [jsonDepth] at h; omega
          | succ fuel =>
              rw [jsonDepth] at h
              show Json.obj ((sortPairs fs).map
                  (fun kv => (kv.1, canonicalizeAux fuel kv.2)))
                  = canonicalize (.obj fs)
              rw [show canonicalize (.obj fs)
                  = Json.obj ((sortPairs fs).map
                      (fun kv => (kv.1, canonicalizeAux (jsonDepthFields fs) kv.2))) by
                rw [canonicalize, jsonDepth]
                rfl]
              congr 1
              apply List.map_congr_left
              intro kv hkv
              have hmem : kv ∈ fs := (sortPairs_perm fs).mem_iff.mp hkv
              have hdx := jsonDepthFields_le fs kv hmem
              rw [ih fuel (by omega) kv.2 (by omega),
                ih (jsonDepthFields fs) (by omega) kv.2 (by omega)]

theorem canonicalize_arr (xs : List Json) :
    canonicalize (.arr xs) = .arr (xs.map canonicalize) := by
  rw [show canonicalize (.arr xs)
      = Json.arr (xs.map (canonicalizeAux (jsonDepthList xs))) by
    rw [canonicalize, jsonDepth]
    rfl]
  congr 1
  apply List.map_congr_left
  intro x hx
  exact canonicalizeAux_fuel _ x (jsonDepthList_le xs x hx)

theorem canonicalize_obj (fs : List (String × Json)) :
    canonicalize (.obj fs)
      = .obj ((sortPairs fs).map (fun kv => (kv.1, canonicalize kv.2))) := by
  rw [show canonicalize (.obj fs)
      = Json.obj ((sortPairs fs).map
          (fun kv => (kv.1, canonicalizeAux (jsonDepthFields fs) kv.2))) by
    rw [canonicalize, jsonDepth]
    rfl]
  congr 1
  apply List.map_congr_left
  intro kv hkv
  have hmem : kv ∈ fs := (sortPairs_perm fs).mem_iff.mp hkv
  exact congrArg (fun v => (kv.1, v))
    (canonicalizeAux_fuel _ kv.2 (jsonDepthFields_le fs kv hmem))

/-- The key multisets of `FieldsPerm`-related field lists agree. -/
theorem fieldsPerm_keys : ∀ fs gs, FieldsPerm fs gs →
    (fs.map Prod.fst).Perm (gs.map Prod.fst) := by
  intro fs
  induction fs with
  | nil =>
      intro gs h
      cases h
      exact List.Perm.refl _
  | cons hd tl ih =>
      intro gs h
      cases h with
      | cons k v w fs l r hkv hfp =>
          have hrec := ih _ hfp
          rw [List.map_append] at hrec
          have h2 := (hrec.cons k).trans List.perm_middle.symm
          have h3 : (l ++ (k, w) :: r).map Prod.fst
              = l.map Prod.fst ++ k :: r.map Prod.fst := by simp
          rw [show ((k, v) :: tl).map Prod.fst = k :: tl.map Prod.fst from rfl, h3]
          exact h2

end QuoteServer

namespace QuoteServer

/-! ## Order facts for the key sort -/

theorem charListLt_asymm : ∀ x y, charListLt x y = true → charListLt y x = false := by
  intro x
  induction x with
  | nil =>
      intro y h
      cases y with
      | nil => simp [charListLt] at h
      | cons b bs => rfl
  | cons a as ih =>
      intro y h
      cases y with
      | nil => simp [charListLt] at h
      | cons b bs =>
          rw [charListLt] at h ⊢
          by_cases hab : a.toNat < b.toNat
          · rw [if_neg (by omega), if_pos hab]
          · by_cases hba : b.toNat < a.toNat
            · rw [if_neg hab, if_pos hba] at h
              exact Bool.noConfusion h
            · rw [if_neg hab, if_neg hba] at h
              rw [if_neg hba, if_neg hab]
              exact ih bs h

theorem charListLt_trans : ∀ x y z,
    charListLt x y = true → charListLt y z = true → charListLt x z = true := by
  intro x
  induction x with
  | nil =>
      intro y z h1 h2
      cases y with
      | nil => simp [charListLt] at h1
      | cons b bs =>
          cases z with
          | nil => simp [charListLt] at h2
          | cons c cs => rfl
  | cons a as ih =>
      intro y z h1 h2
      cases y with
      | nil => simp [charListLt] at h1
      | cons b bs =>
          cases z with
          | nil => simp [charListLt] at h2
          | cons c cs =>
              rw [charListLt] at h1 h2 ⊢
              by_cases hab : a.toNat < b.toNat
              · by_cases hbc : b.toNat < c.toNat
                · rw [if_pos (by omega)]
                · by_cases hcb : c.toNat < b.toNat
                  · rw [if_neg hbc, if_pos hcb] at h2
                    exact Bool.noConfusion h2
                  · rw [if_pos (by omega)]
              · by_cases hba : b.toNat < a.toNat
                · rw [if_neg hab, if_pos hba] at h1
                  exact Bool.noConfusion h1
                · rw [if_neg hab, if_neg hba] at h1
                  by_cases hbc : b.toNat < c.toNat
                  · rw [if_pos (by omega)]
                  · by_cases hcb : c.toNat < b.toNat
                    · rw [if_neg hbc, if_pos hcb] at h2
                      exact Bool.noConfusion h2
                    · rw [if_neg hbc, if_neg hcb] at h2
                      rw [if_neg (by omega), if_neg (by omega)]
                      exact ih bs cs h1 h2

theorem charListLt_eq_of_not : ∀ x y,
    charListLt x y = false → charListLt y x = false → x = y := by
  intro x
  induction x with
  | nil =>
      intro y h1 _
      cases y with
      | nil => rfl
      | cons b bs => simp [charListLt] at h1
  | cons a as ih =>
      intro y h1 h2
      cases y with
      | nil => simp [charListLt] at h2
      | cons b bs =>
          rw [charListLt] at h1 h2
          by_cases hab : a.toNat < b.toNat
          · rw [if_pos hab] at h1
            exact Bool.noConfusion h1
          · by_cases hba : b.toNat < a.toNat
            · rw [if_pos hba] at h2
              exact Bool.noConfusion h2
            · rw [if_neg hab, if_neg hba] at h1
              have hc : a = b := by
                have hn : a.toNat = b.toNat := by omega
                have := congrArg Char.ofNat hn
                rwa [Char.ofNat_toNat, Char.ofNat_toNat] at this
              rw [if_neg hba, if_neg hab] at h2
              rw [hc, ih bs h1 h2]

instance : IsTotal (String × Json) keyRel :=
  ⟨fun a b => by
    unfold keyRel
    cases hb : charListLt b.1.data a.1.data with
    | false => exact Or.inl rfl
    | true => exact Or.inr (charListLt_asymm _ _ hb)⟩

instance : IsTrans (String × Json) keyRel :=
  ⟨fun a b c hab hbc => by
    unfold keyRel at hab hbc ⊢
    cases hca : charListLt c.1.data a.1.data with
    | false => rfl
    | true =>
        exfalso
        cases hab' : charListLt a.1.data b.1.data with
        | true =>
            have := charListLt_trans _ _ _ hca hab'
            rw [hbc] at this
            exact Bool.noConfusion this
        | false =>
            have heq := charListLt_eq_of_not _ _ hab' hab
            rw [heq] at hca
            rw [hbc] at hca
            exact Bool.noConfusion hca⟩

theorem sortPairs_sorted (fs : List (String × Json)) : (sortPairs fs).Pairwise keyRel :=
  List.sorted_insertionSort keyRel fs

/-- Two key-sorted field lists that are permutations of each other and
have duplicate-free keys are equal. -/
theorem sortedPairs_eq (l1 l2 : List (String × Json))
    (hperm : l1.Perm l2)
    (hs1 : l1.Pairwise keyRel) (hs2 : l2.Pairwise keyRel)
    (hnd : (l1.map Prod.fst).Nodup) : l1 = l2 := by
  have hnd2 : (l2.map Prod.fst).Nodup := ((hperm.map Prod.fst).nodup_iff).mp hnd
  have strict : ∀ (l : List (String × Json)), l.Pairwise keyRel →
      (l.map Prod.fst).Nodup →
      l.Pairwise (fun a b => charListLt a.1.data b.1.data = true) := by
    intro l hle hndl
    have hne : l.Pairwise (fun a b : String × Json => a.1 ≠ b.1) := by
      rw [List.Nodup, List.pairwise_map] at hndl
      exact hndl
    refine (hle.and hne).imp ?_
    intro a b hab
    cases hab' : charListLt a.1.data b.1.data with
    | true => rfl
    | false =>
        exfalso
        have hdq := charListLt_eq_of_not _ _ hab' hab.1
        exact hab.2 (by
          have h2 := congrArg String.mk hdq
          simpa using h2)
  haveI : IsAntisymm (String × Json) (fun a b => charListLt a.1.data b.1.data = true) :=
    ⟨fun a b h1 h2 => by
      have := charListLt_asymm _ _ h1
      rw [h2] at this
      exact Bool.noConfusion this⟩
  exact List.eq_of_perm_of_sorted hperm (strict l1 hs1 hnd) (strict l2 hs2 hnd2)

end QuoteServer

namespace QuoteServer

/-! ## Canonicalization respects key reordering -/

theorem arrEquiv_map_canonicalize : ∀ xs ys,
    (∀ x ∈ xs, ∀ y, wfB x = true → KeyEquiv x y → canonicalize x = canonicalize y) →
    (∀ x ∈ xs, wfB x = true) → ArrEquiv xs ys →
    xs.map canonicalize = ys.map canonicalize := by
  intro xs
  induction xs with
  | nil =>
      intro ys _ _ h
      cases h
      rfl
  | cons x xs ih =>
      intro ys hIH hwf h
      cases h with
      | cons hxy hrest =>
          rename_i y ys'
          rw [List.map_cons, List.map_cons,
            hIH x (by simp) y (hwf x (by simp)) hxy,
            ih ys' (fun a ha b hw hk => hIH a (by simp [ha]) b hw hk)
              (fun a ha => hwf a (by simp [ha])) hrest]

theorem fieldsPerm_map_canonicalize_perm : ∀ fs gs,
    (∀ kv ∈ fs, ∀ w, wfB kv.2 = true → KeyEquiv kv.2 w →
        canonicalize kv.2 = canonicalize w) →
    (∀ kv ∈ fs, wfB kv.2 = true) → FieldsPerm fs gs →
    (fs.map (fun kv => (kv.1, canonicalize kv.2))).Perm
      (gs.map (fun kv => (kv.1, canonicalize kv.2))) := by
  intro fs
  induction fs with
  | nil =>
      intro gs _ _ h
      cases h
      exact List.Perm.refl _
  | cons hd tl ih =>
      intro gs hIH hwf h
      obtain ⟨k0, v0⟩ := hd
      cases h with
      | cons k v w fs l r hkv hfp =>
          have hv : canonicalize v0 = canonicalize w :=
            hIH (k0, v0) (by simp) w (hwf (k0, v0) (by simp)) hkv
          have hrec := ih (l ++ r)
            (fun kv hkv2 w2 hw2 hk2 => hIH kv (by simp [hkv2]) w2 hw2 hk2)
            (fun kv hkv2 => hwf kv (by simp [hkv2])) hfp
          rw [List.map_append] at hrec
          rw [List.map_cons, List.map_append, List.map_cons, hv]
          exact (hrec.cons (k0, canonicalize w)).trans List.perm_middle.symm

/-- `canonicalize` maps `KeyEquiv`-related well-formed values to the
same canonical form. -/
theorem canonicalize_keyEquiv : ∀ (n : Nat) (p q : Json), sizeOf p ≤ n →
    wfB p = true → KeyEquiv p q → canonicalize p = canonicalize q := by
  intro n
  induction n with
  | zero =>
      intro p q hsz
      exfalso
      cases p <;> simp at hsz
  | succ n ih =>
      intro p q hsz hwf heq
      cases heq with
      | null => rfl
      | bool b => rfl
      | num m => rfl
      | str s => rfl
      | arr ha =>
          rename_i xs ys
          rw [canonicalize_arr, canonicalize_arr]
          congr 1
          refine arrEquiv_map_canonicalize xs ys ?_ (wfB_arr_mem hwf) ha
          intro x hx y hwx hxy
          refine ih x y ?_ hwx hxy
          have h1 := List.sizeOf_lt_of_mem hx
          simp only [Json.arr.sizeOf_spec] at hsz
          omega
      | obj hf =>
          rename_i fs gs
          rw [canonicalize_obj, canonicalize_obj]
          congr 1
          have hIH : ∀ kv ∈ fs, ∀ w, wfB kv.2 = true → KeyEquiv kv.2 w →
              canonicalize kv.2 = canonicalize w := by
            intro kv hkv w hw hkw
            refine ih kv.2 w ?_ hw hkw
            have h1 := List.sizeOf_lt_of_mem hkv
            have h2 : sizeOf kv.2 < sizeOf kv := by
              obtain ⟨a, b⟩ := kv
              simp only [Prod.mk.sizeOf_spec]
              omega
            simp only [Json.obj.sizeOf_spec] at hsz
            omega
          have hperm0 := fieldsPerm_map_canonicalize_perm fs gs hIH (wfB_obj_mem hwf) hf
          have hp1 : ((sortPairs fs).map (fun kv => (kv.1, canonicalize kv.2))).Perm
              (fs.map (fun kv => (kv.1, canonicalize kv.2))) :=
            (sortPairs_perm fs).map _
          have hp2 : ((sortPairs gs).map (fun kv => (kv.1, canonicalize kv.2))).Perm
              (gs.map (fun kv => (kv.1, canonicalize kv.2))) :=
            (sortPairs_perm gs).map _
          have hperm := hp1.trans (hperm0.trans hp2.symm)
          have hsort : ∀ (l : List (String × Json)),
              ((sortPairs l).map (fun kv => (kv.1, canonicalize kv.2))).Pairwise keyRel := by
            intro l
            refine List.Pairwise.map _ ?_ (sortPairs_sorted l)
            intro a b hab
            exact hab
          have hnd1 : ((((sortPairs fs).map
              (fun kv => (kv.1, canonicalize kv.2))).map Prod.fst)).Nodup := by
            rw [List.map_map]
            have hsame : (Prod.fst ∘ fun kv : String × Json => (kv.1, canonicalize kv.2))
                = Prod.fst := rfl
            rw [hsame]
            exact ((sortPairs_perm fs).map Prod.fst).nodup_iff.mpr (wfB_obj_nodup hwf)
          exact sortedPairs_eq _ _ hperm (hsort fs) (hsort gs) hnd1

end QuoteServer

namespace QuoteServer

/-! ## Claims: API key gate, download route, token expiry -/

/-- C10: if the server's `API_KEY` configuration value is unset or
empty, every request to the quote-submission endpoint is rejected with
HTTP 401 (`apiKeyGate _ _ = false` is the middleware's 401 response)
regardless of the `x-api-key` header the client supplies: the
shared-secret check fails closed. -/
theorem C10_api_key_fails_closed :
    ∀ clientKey : Option String,
      apiKeyGate none clientKey = false ∧ apiKeyGate (some "") clientKey = false := by
  intro ck
  exact ⟨rfl, rfl⟩

/-- C8: the download endpoint implements exactly the spec's case
analysis (`downloadSpecModel`): missing token is unauthorized;
verification failure, expiry, or an embedded name differing from the
path's artifact name is forbidden; a verified token naming an artifact
absent from storage is not-found; otherwise the artifact is streamed. -/
theorem C8_download_route_correct :
    ∀ (secret : String) (now : Nat) (name : String) (token : Option String)
      (fileExists : String → Bool),
      downloadDevis secret now name token fileExists
        = downloadSpecModel secret now name token fileExists := by
  intro secret now name token fe
  cases token with
  | none => rfl
  | some t =>
      simp only [downloadDevis, downloadSpecModel]
      cases hv : verifyDownloadToken secret t now with
      | none => simp
      | some payload =>
          by_cases hn : payload.name = name
          · simp [hn]
          · simp [hn]

/-- C7: for a payload carrying an expiry, verify-of-sign succeeds and
returns the payload exactly when the expiry is at or after the clock
(`now` is epoch seconds at verification time, hence positive); in
particular a token signed with expiry `t+60` verifies at `t+30` and
fails at `t+61`; and a payload without an expiry field fails closed. -/
theorem C7_token_expiry (secret name : String) (e t now : Nat)
    (hp : plainStr name = true) (hnow : 0 < now) :
    (verifyDownloadToken secret (signDownloadToken secret ⟨name, some e⟩) now
        = some ⟨name, some e⟩ ↔ now ≤ e)
    ∧ verifyDownloadToken secret (signDownloadToken secret ⟨name, none⟩) now = none
    ∧ verifyDownloadToken secret (signDownloadToken secret ⟨name, some (t + 60)⟩) (t + 30)
        = some ⟨name, some (t + 60)⟩
    ∧ verifyDownloadToken secret (signDownloadToken secret ⟨name, some (t + 60)⟩) (t + 61)
        = none := by
  refine ⟨?_, ?_, ?_, ?_⟩
  · rw [verifyDownloadToken_signDownloadToken secret ⟨name, some e⟩ now hp]
    show (if (e = 0 : Bool) || (e < now : Bool) then none
          else some (⟨name, some e⟩ : TokenPayload))
        = some (⟨name, some e⟩ : TokenPayload) ↔ now ≤ e
    split_ifs with h0
    · simp only [Bool.or_eq_true, decide_eq_true_eq] at h0
      constructor
      · intro hc
        simp at hc
      · intro hc
        omega
    · simp only [Bool.or_eq_true, decide_eq_true_eq, not_or] at h0
      constructor
      · intro _
        omega
      · intro _
        rfl
  · exact verifyDownloadToken_signDownloadToken secret ⟨name, none⟩ now hp
  · rw [verifyDownloadToken_signDownloadToken secret ⟨name, some (t + 60)⟩ (t + 30) hp]
    show (if (t + 60 = 0 : Bool) || (t + 60 < t + 30 : Bool) then none
          else some (⟨name, some (t + 60)⟩ : TokenPayload))
        = some (⟨name, some (t + 60)⟩ : TokenPayload)
    rw [if_neg (by simp)]
  · rw [verifyDownloadToken_signDownloadToken secret ⟨name, some (t + 60)⟩ (t + 61) hp]
    show (if (t + 60 = 0 : Bool) || (t + 60 < t + 61 : Bool) then none
          else some (⟨name, some (t + 60)⟩ : TokenPayload)) = none
    rw [if_pos (by simp)]

set_option maxRecDepth 100000 in
/-- Concrete instance of `C7_token_expiry`: a real token round-trip with
the default secret, expiry 160, verified at clock 100 (valid) and the
missing-expiry payload (fails). -/
theorem C7_token_expiry_witness :
    verifyDownloadToken "dev-download-secret"
        (signDownloadToken "dev-download-secret" ⟨"devis-1.pdf", some 160⟩) 100
      = some ⟨"devis-1.pdf", some 160⟩
    ∧ verifyDownloadToken "dev-download-secret"
        (signDownloadToken "dev-download-secret" ⟨"devis-1.pdf", none⟩) 100 = none :=
  ⟨(C7_token_expiry "dev-download-secret" "devis-1.pdf" 160 0 100
      (by decide) (by decide)).1.mpr (by omega),
   (C7_token_expiry "dev-download-secret" "devis-1.pdf" 160 0 100
      (by decide) (by decide)).2.1⟩

end QuoteServer

namespace QuoteServer

/-! ## Claim: fingerprint invariance -/

/-- C3 (amended): for well-formed payloads that are structurally equal
up to object-key ordering (at any depth, array order preserved), the
computed fingerprints are equal; and a null or missing request body
fingerprints identically to the empty object. (Array element order is
significant — see `C3_counterexample`.) -/
theorem C3_fingerprint_key_order (secret : String) (p q : Json)
    (hwf : wfB p = true) (h : KeyEquiv p q) :
    fingerprintHex secret p = fingerprintHex secret q
    ∧ bodySigOf secret none = bodySigOf secret (some (.obj []))
    ∧ bodySigOf secret (some .null) = bodySigOf secret (some (.obj [])) := by
  refine ⟨?_, rfl, rfl⟩
  unfold fingerprintHex stableStringify
  rw [canonicalize_keyEquiv (sizeOf p) p q le_rfl hwf h]

set_option maxRecDepth 100000 in
/-- Concrete instance of `C3_fingerprint_key_order`: the same two fields
listed in either order fingerprint identically. -/
theorem C3_fingerprint_key_order_witness :
    fingerprintHex "dev-download-secret" (.obj [("b", .num 1), ("a", .num 2)])
      = fingerprintHex "dev-download-secret" (.obj [("a", .num 2), ("b", .num 1)]) :=
  (C3_fingerprint_key_order "dev-download-secret" _ _ (by decide)
    (KeyEquiv.obj
      (FieldsPerm.cons "b" (.num 1) (.num 1) [("a", .num 2)] [("a", .num 2)] []
        (KeyEquiv.num 1)
        (FieldsPerm.cons "a" (.num 2) (.num 2) [] [] []
          (KeyEquiv.num 2) FieldsPerm.nil)))).1

set_option maxRecDepth 100000 in
/-- C3 counterexample: the payloads with field `a` holding `[1,2]`
versus `[2,1]` are structurally equal up to array element order within a
sub-object (and trivially up to key ordering), yet their canonical
serializations — and hence their fingerprints — differ: canonicalization
preserves array element order. -/
theorem C3_counterexample :
    stableStringify (.obj [("a", .arr [.num 1, .num 2])])
      ≠ stableStringify (.obj [("a", .arr [.num 2, .num 1])])
    ∧ fingerprintHex "dev-download-secret" (.obj [("a", .arr [.num 1, .num 2])])
      ≠ fingerprintHex "dev-download-secret" (.obj [("a", .arr [.num 2, .num 1])]) := by
  exact ⟨by decide, by decide⟩

end QuoteServer

namespace QuoteServer

/-! ## Association-list lemmas and eviction -/

theorem lookupA_eq_none_iff {α : Type} {l : List (String × α)} {k : String} :
    lookupA l k = none ↔ ∀ kv ∈ l, kv.1 ≠ k := by
  unfold lookupA
  cases hf : l.find? (fun kv => kv.1 == k) with
  | none =>
      simp only [true_iff]
      intro kv hkv hk
      have := List.find?_eq_none.mp hf kv hkv
      simp [hk] at this
  | some kv =>
      simp only [reduceCtorEq, false_iff, not_forall]
      have hm := List.mem_of_find?_eq_some hf
      have hk := List.find?_some hf
      exact ⟨kv, hm, by simpa using hk⟩

theorem lookupA_some_mem {α : Type} {l : List (String × α)} {k : String} {v : α}
    (h : lookupA l k = some v) : (k, v) ∈ l := by
  unfold lookupA at h
  cases hf : l.find? (fun kv => kv.1 == k) with
  | none => rw [hf] at h; exact Option.noConfusion h
  | some kv =>
      rw [hf] at h
      have hv : kv.2 = v := by injection h
      have hm := List.mem_of_find?_eq_some hf
      have hk : kv.1 = k := by simpa using List.find?_some hf
      obtain ⟨a, b⟩ := kv
      rw [show (a, b).1 = a from rfl] at hk
      rw [show (a, b).2 = b from rfl] at hv
      rw [← hk, ← hv]
      exact hm

theorem nodup_keys_eq {α : Type} : ∀ (l : List (String × α)) (k : String) (v w : α),
    (l.map Prod.fst).Nodup → (k, v) ∈ l → (k, w) ∈ l → v = w := by
  intro l
  induction l with
  | nil => intro k v w _ h1; simp at h1
  | cons hd tl ih =>
      intro k v w hnd h1 h2
      rw [List.map_cons, List.nodup_cons] at hnd
      rcases List.mem_cons.mp h1 with h1 | h1
      · rcases List.mem_cons.mp h2 with h2 | h2
        · have h3 : (k, w) = (k, v) := h2.trans h1.symm
          exact ((Prod.mk.injEq _ _ _ _).mp h3).2.symm
        · exfalso
          apply hnd.1
          rw [← h1]
          exact List.mem_map.mpr ⟨(k, w), h2, rfl⟩
      · rcases List.mem_cons.mp h2 with h2 | h2
        · exfalso
          apply hnd.1
          rw [← h2]
          exact List.mem_map.mpr ⟨(k, v), h1, rfl⟩
        · exact ih k v w hnd.2 h1 h2

theorem lookupA_filter_none {α : Type} (l : List (String × α)) (k : String)
    (p : String × α → Bool) (v : α)
    (hnd : (l.map Prod.fst).Nodup)
    (hv : lookupA l k = some v) (hp : p (k, v) = false) :
    lookupA (l.filter p) k = none := by
  rw [lookupA_eq_none_iff]
  intro kv hkv hkk
  have hmem := List.mem_of_mem_filter hkv
  have hpkv := List.of_mem_filter hkv
  have hkv2 : kv.2 = v := by
    refine nodup_keys_eq l k kv.2 v hnd ?_ (lookupA_some_mem hv)
    rw [← hkk]
    exact hmem
  have : kv = (k, v) := by
    obtain ⟨a, b⟩ := kv
    rw [show (a, b).1 = a from rfl] at hkk
    rw [show (a, b).2 = b from rfl] at hkv2
    rw [hkk, hkv2]
  rw [this] at hpkv
  rw [hpkv] at hp
  exact Bool.noConfusion hp

/-- C9: a RequestRecord inserted at time `T` is absent at `T+WINDOW+1`:
the duplicate-window test rejects it and the next sweep removes it
physically; the sweep evicts ProcessedRecords on the same window and
removes the RecipientSet of every fingerprint whose ProcessedRecord is
gone in the same pass, so after a sweep no RecipientSet outlives its
ProcessedRecord. -/
theorem C9_eviction (W T now : Nat) (st : ServerState) (sig : String)
    (hT : lookupA st.recentRequests sig = some T)
    (hq : T + W + 1 ≤ now)
    (hnd : (st.recentRequests.map Prod.fst).Nodup)
    (hnds : (st.sentRecords.map Prod.fst).Nodup) :
    withinWindow W T now = false
    ∧ lookupA (sweep W now st).recentRequests sig = none
    ∧ (∀ T2, lookupA st.sentRecords sig = some T2 → T2 + W + 1 ≤ now →
        lookupA (sweep W now st).sentRecords sig = none
        ∧ lookupA (sweep W now st).sentRecipients sig = none)
    ∧ (∀ sg s, lookupA (sweep W now st).sentRecipients sg = some s →
        (lookupA (sweep W now st).sentRecords sg).isSome = true) := by
  have hsr_none : ∀ T2, lookupA st.sentRecords sig = some T2 → T2 + W + 1 ≤ now →
      lookupA (sweep W now st).sentRecords sig = none := by
    intro T2 h2 hq2
    show lookupA (st.sentRecords.filter
      (fun p : String × Nat => !decide ((now : Int) - (p.2 : Int) > (W : Int)))) sig = none
    refine lookupA_filter_none _ _ _ T2 hnds h2 ?_
    simp only [Bool.not_eq_false', decide_eq_true_eq]
    show (now : Int) - (T2 : Int) > (W : Int)
    omega
  refine ⟨?_, ?_, ?_, ?_⟩
  · unfold withinWindow
    simp only [Bool.and_eq_false_iff]
    right
    simp only [decide_eq_false_iff_not, not_lt]
    omega
  · show lookupA (st.recentRequests.filter
      (fun p : String × Nat => !decide ((now : Int) - (p.2 : Int) > (W : Int)))) sig = none
    refine lookupA_filter_none _ _ _ T hnd hT ?_
    simp only [Bool.not_eq_false', decide_eq_true_eq]
    show (now : Int) - (T : Int) > (W : Int)
    omega
  · intro T2 h2 hq2
    refine ⟨hsr_none T2 h2 hq2, ?_⟩
    rw [lookupA_eq_none_iff]
    intro kv hkv hkk
    have hkv2 : kv ∈ st.sentRecipients.filter
        (fun p : String × List String =>
          (lookupA ((sweep W now st).sentRecords) p.1).isSome) := hkv
    have hpkv0 := List.of_mem_filter hkv2
    have hpkv : (lookupA (sweep W now st).sentRecords kv.1).isSome = true := hpkv0
    rw [hkk, hsr_none T2 h2 hq2] at hpkv
    exact Bool.noConfusion hpkv
  · intro sg s hs
    have hmem2 : (sg, s) ∈ st.sentRecipients.filter
        (fun p : String × List String =>
          (lookupA ((sweep W now st).sentRecords) p.1).isSome) :=
      lookupA_some_mem hs
    have hpkv0 := List.of_mem_filter hmem2
    have hpkv : (lookupA (sweep W now st).sentRecords (sg, s).1).isSome = true := hpkv0
    exact hpkv

/-- Concrete instance of `C9_eviction` at window 15, insertion time 100,
query time 116. -/
theorem C9_eviction_witness :
    withinWindow 15 100 116 = false
    ∧ lookupA (sweep 15 116 ⟨[("f", 100)], [("f", 100)], [("f", ["a@x.com"])]⟩
        : ServerState).recentRequests "f" = none
    ∧ lookupA (sweep 15 116 ⟨[("f", 100)], [("f", 100)], [("f", ["a@x.com"])]⟩
        : ServerState).sentRecipients "f" = none := by
  have h := C9_eviction 15 100 116 ⟨[("f", 100)], [("f", 100)], [("f", ["a@x.com"])]⟩ "f"
    (by decide) (by omega) (by decide) (by decide)
  exact ⟨h.1, h.2.1, (h.2.2.1 100 (by decide) (by omega)).2⟩

end QuoteServer

namespace QuoteServer

/-! ## Recipient-set and admin-loop lemmas -/

theorem setAdd_contains_self (l : List String) (a : String) :
    (setAdd l a).contains a = true := by
  unfold setAdd
  by_cases h : l.contains a
  · rw [if_pos h]
    exact h
  · rw [if_neg h]
    rw [List.elem_iff]
    simp

theorem setAdd_contains_mono (l : List String) (a b : String)
    (h : l.contains b = true) : (setAdd l a).contains b = true := by
  unfold setAdd
  by_cases hc : l.contains a
  · rw [if_pos hc]
    exact h
  · rw [if_neg hc]
    rw [List.elem_iff] at h ⊢
    simp [h]

/-- `sendMail` attempts cannot repeat a recipient that a SUCCESSFUL
earlier attempt already covered. -/
def noResendAfterSuccessB : List (String × Bool) → Bool
  | [] => true
  | (a, ok) :: rest =>
      (!ok || !((rest.map Prod.fst).contains a)) && noResendAfterSuccessB rest

theorem noResend_of_nodup : ∀ (l : List (String × Bool)),
    (l.map Prod.fst).Nodup → noResendAfterSuccessB l = true := by
  intro l
  induction l with
  | nil => intro _; rfl
  | cons p rest ih =>
      intro h
      obtain ⟨a, ok⟩ := p
      rw [List.map_cons, List.nodup_cons] at h
      show ((!ok || !((rest.map Prod.fst).contains a)) && noResendAfterSuccessB rest) = true
      rw [ih h.2]
      have : (rest.map Prod.fst).contains a = false := by
        rw [← Bool.not_eq_true, List.elem_iff]
        exact h.1
      rw [this]
      simp

theorem noResend_append_one (xs : List (String × Bool)) (ce : String) (b : Bool)
    (h1 : noResendAfterSuccessB xs = true)
    (h2 : ∀ p ∈ xs, p.2 = true → p.1 ≠ ce) :
    noResendAfterSuccessB (xs ++ [(ce, b)]) = true := by
  induction xs with
  | nil =>
      show ((!b || !(([] : List (String × Bool)).map Prod.fst).contains ce) && true) = true
      simp [List.contains]
  | cons p rest ih =>
      obtain ⟨a, ok⟩ := p
      rw [List.cons_append]
      show ((!ok || !(((rest ++ [(ce, b)]).map Prod.fst).contains a))
          && noResendAfterSuccessB (rest ++ [(ce, b)])) = true
      have hx1 : noResendAfterSuccessB rest = true := by
        have := h1
        rw [show noResendAfterSuccessB ((a, ok) :: rest)
            = ((!ok || !((rest.map Prod.fst).contains a))
              && noResendAfterSuccessB rest) from rfl, Bool.and_eq_true] at this
        exact this.2
      rw [ih hx1 (fun p hp hps => h2 p (by simp [hp]) hps), Bool.and_true]
      cases hok : ok with
      | false => rfl
      | true =>
          have hhead : (!ok || !((rest.map Prod.fst).contains a)) = true := by
            have := h1
            rw [show noResendAfterSuccessB ((a, ok) :: rest)
                = ((!ok || !((rest.map Prod.fst).contains a))
                  && noResendAfterSuccessB rest) from rfl, Bool.and_eq_true] at this
            exact this.1
          rw [hok] at hhead
          simp only [Bool.not_true, Bool.false_or] at hhead
          have hc : ((rest.map Prod.fst).contains a) = false := by
            cases hcc : ((rest.map Prod.fst).contains a) with
            | false => rfl
            | true => rw [hcc] at hhead; exact Bool.noConfusion hhead
          have hnotin : a ∉ rest.map Prod.fst := by
            intro hm
            have hx : (rest.map Prod.fst).contains a = true := List.elem_iff.mpr hm
            rw [hc] at hx
            exact Bool.noConfusion hx
          have hane : a ≠ ce := h2 (a, ok) (by simp) (by rw [hok])
          have hfin : ((rest ++ [(ce, b)]).map Prod.fst).contains a = false := by
            cases hcc : ((rest ++ [(ce, b)]).map Prod.fst).contains a with
            | false => rfl
            | true =>
                have hm := List.elem_iff.mp hcc
                rw [List.map_append] at hm
                rcases List.mem_append.mp hm with hm | hm
                · exact (hnotin hm).elim
                · simp at hm
                  exact (hane hm).elim
          rw [hfin]
          rfl

end QuoteServer

namespace QuoteServer

theorem setAdd_contains_other (l : List String) (a b : String) (h : b ≠ a) :
    (setAdd l a).contains b = l.contains b := by
  unfold setAdd
  by_cases hc : l.contains a
  · rw [if_pos hc]
  · rw [if_neg hc]
    rw [Bool.eq_iff_iff, List.elem_iff, List.elem_iff]
    constructor
    · intro hm
      rcases List.mem_append.mp hm with hm | hm
      · exact hm
      · simp at hm
        exact absurd hm h
    · intro hm
      exact List.mem_append.mpr (Or.inl hm)

theorem adminLoop_cons (sendOk : String → Bool) (a : String) (rest recSet : List String) :
    adminLoop sendOk (a :: rest) recSet
      = if sendOk a then
          ((adminLoop sendOk rest (setAdd recSet a)).1,
           (a, true) :: (adminLoop sendOk rest (setAdd recSet a)).2.1,
           (adminLoop sendOk rest (setAdd recSet a)).2.2)
        else (recSet, [(a, false)], false) := rfl

theorem adminLoop_ok_iff (sendOk : String → Bool) : ∀ (l recSet : List String),
    ((adminLoop sendOk l recSet).2.2 = true ↔ ∀ a ∈ l, sendOk a = true) := by
  intro l
  induction l with
  | nil =>
      intro rs
      simp [adminLoop]
  | cons a rest ih =>
      intro rs
      rw [adminLoop_cons]
      by_cases h : sendOk a = true
      · rw [if_pos h]
        show (adminLoop sendOk rest (setAdd rs a)).2.2 = true ↔ _
        rw [ih (setAdd rs a)]
        constructor
        · intro hz b hb
          rcases List.mem_cons.mp hb with rfl | hb
          · exact h
          · exact hz b hb
        · intro hall b hb
          exact hall b (List.mem_cons_of_mem a hb)
      · rw [if_neg h]
        show false = true ↔ _
        constructor
        · intro hf
          exact Bool.noConfusion hf
        · intro hall
          exact absurd (hall a (List.mem_cons_self a rest)) h

theorem adminLoop_attempts_spec (sendOk : String → Bool) : ∀ (l recSet : List String),
    ∀ p ∈ (adminLoop sendOk l recSet).2.1, p.1 ∈ l ∧ p.2 = sendOk p.1 := by
  intro l
  induction l with
  | nil =>
      intro rs p hp
      simp [adminLoop] at hp
  | cons a rest ih =>
      intro rs p hp
      rw [adminLoop_cons] at hp
      by_cases h : sendOk a = true
      · rw [if_pos h] at hp
        rcases List.mem_cons.mp hp with rfl | hp
        · exact ⟨List.mem_cons_self a rest, by rw [h]⟩
        · have := ih (setAdd rs a) p hp
          exact ⟨List.mem_cons_of_mem a this.1, this.2⟩
      · rw [if_neg h] at hp
        have hp2 : p = (a, false) := by simpa using hp
        rw [hp2]
        refine ⟨List.mem_cons_self a rest, ?_⟩
        show false = sendOk a
        exact (Bool.not_eq_true (sendOk a)).mp h |>.symm

theorem adminLoop_contains_mono (sendOk : String → Bool) : ∀ (l recSet : List String)
    (a : String), recSet.contains a = true →
    (adminLoop sendOk l recSet).1.contains a = true := by
  intro l
  induction l with
  | nil =>
      intro rs a h
      exact h
  | cons b rest ih =>
      intro rs a h
      rw [adminLoop_cons]
      by_cases hb : sendOk b = true
      · rw [if_pos hb]
        exact ih (setAdd rs b) a (setAdd_contains_mono rs b a h)
      · rw [if_neg hb]
        exact h

theorem adminLoop_contains_of_not_mem (sendOk : String → Bool) : ∀ (l recSet : List String)
    (a : String), a ∉ l →
    (adminLoop sendOk l recSet).1.contains a = recSet.contains a := by
  intro l
  induction l with
  | nil =>
      intro rs a _
      rfl
  | cons b rest ih =>
      intro rs a ha
      have hab : a ≠ b := fun hx => ha (by simp [hx])
      have har : a ∉ rest := fun hx => ha (by simp [hx])
      rw [adminLoop_cons]
      by_cases hb : sendOk b = true
      · rw [if_pos hb]
        rw [ih (setAdd rs b) a har]
        exact setAdd_contains_other rs b a hab
      · rw [if_neg hb]

theorem adminLoop_success_contains (sendOk : String → Bool) : ∀ (l recSet : List String)
    (a : String), (a, true) ∈ (adminLoop sendOk l recSet).2.1 →
    (adminLoop sendOk l recSet).1.contains a = true := by
  intro l
  induction l with
  | nil =>
      intro rs a h
      simp [adminLoop] at h
  | cons b rest ih =>
      intro rs a h
      rw [adminLoop_cons] at h ⊢
      by_cases hb : sendOk b = true
      · rw [if_pos hb] at h ⊢
        rcases List.mem_cons.mp h with heq | h
        · have hba : a = b := by
            have := congrArg Prod.fst heq
            simpa using this
          rw [hba]
          exact adminLoop_contains_mono sendOk rest (setAdd rs b) b
            (setAdd_contains_self rs b)
        · exact ih (setAdd rs b) a h
      · rw [if_neg hb] at h ⊢
        have : (a, true) = (b, false) := by simpa using h
        have hcontra := congrArg Prod.snd this
        simp at hcontra

theorem adminLoop_attempts_nodup (sendOk : String → Bool) : ∀ (l recSet : List String),
    l.Nodup → (((adminLoop sendOk l recSet).2.1.map Prod.fst)).Nodup := by
  intro l
  induction l with
  | nil =>
      intro rs _
      simp [adminLoop]
  | cons a rest ih =>
      intro rs hnd
      rw [List.nodup_cons] at hnd
      rw [adminLoop_cons]
      by_cases h : sendOk a = true
      · rw [if_pos h]
        show ((a, true) :: (adminLoop sendOk rest (setAdd rs a)).2.1).map Prod.fst |>.Nodup
        rw [List.map_cons, List.nodup_cons]
        refine ⟨?_, ih (setAdd rs a) hnd.2⟩
        intro hmem
        rcases List.mem_map.mp hmem with ⟨p, hp, hpa⟩
        have := (adminLoop_attempts_spec sendOk rest (setAdd rs a) p hp).1
        rw [hpa] at this
        exact hnd.1 this
      · rw [if_neg h]
        simp

end QuoteServer

namespace QuoteServer

/-! ## Claims on the orchestrator: validation and render errors -/

/-- C6 (amended): a request with missing or malformed required fields is
rejected with HTTP 400, but only AFTER fingerprinting and after
upserting its RequestRecord: the 400 path leaves a `recentRequests`
entry for the fingerprint (while creating no ProcessedRecord, no
RecipientSet and performing no sends). -/
theorem C6_validation_after_footprint (cfg : Config) (orc : Oracles) (st : ServerState)
    (now : Nat) (bj : Json)
    (hnn : bj ≠ .null)
    (h1 : lookupA st.recentRequests (bodySigOf cfg.secret (some bj)) = none)
    (h2 : lookupA st.sentRecords (bodySigOf cfg.secret (some bj)) = none)
    (hinv : validBody bj = false) :
    sendQuote cfg orc st now (some bj)
      = ⟨⟨400, false, false⟩,
         ⟨setA st.recentRequests (bodySigOf cfg.secret (some bj)) now,
          st.sentRecords, st.sentRecipients⟩, []⟩ := by
  simp only [sendQuote]
  rw [h1, h2]
  cases bj with
  | null => exact absurd rfl hnn
  | bool b => simp [hinv]
  | num n => simp [hinv]
  | str s => simp [hinv]
  | arr xs => simp [hinv]
  | obj fs => simp [hinv]

set_option maxRecDepth 400000 in
/-- Concrete instance of `C6_validation_after_footprint`: the
empty-object body from a fresh cache. -/
theorem C6_validation_witness :
    sendQuote ⟨"dev-download-secret", 15, some "a@x.com", "smtp@x.com"⟩
        ⟨true, fun _ => true⟩ ⟨[], [], []⟩ 100 (some (.obj []))
      = ⟨⟨400, false, false⟩,
         ⟨setA [] (bodySigOf "dev-download-secret" (some (.obj []))) 100, [], []⟩, []⟩ :=
  C6_validation_after_footprint ⟨"dev-download-secret", 15, some "a@x.com", "smtp@x.com"⟩
    ⟨true, fun _ => true⟩ ⟨[], [], []⟩ 100 (.obj [])
    (fun h => Json.noConfusion h) rfl rfl (by decide)

set_option maxRecDepth 400000 in
/-- C6 counterexample: the claim as stated is false — an invalid body IS
fingerprinted, and a RequestRecord IS created for it, before the 400
rejection. -/
theorem C6_counterexample :
    (sendQuote ⟨"dev-download-secret", 15, some "a@x.com", "smtp@x.com"⟩
        ⟨true, fun _ => true⟩ ⟨[], [], []⟩ 100 (some (.obj []))).resp
      = ⟨400, false, false⟩
    ∧ lookupA (sendQuote ⟨"dev-download-secret", 15, some "a@x.com", "smtp@x.com"⟩
        ⟨true, fun _ => true⟩ ⟨[], [], []⟩ 100 (some (.obj []))).state.recentRequests
        (bodySigOf "dev-download-secret" (some (.obj []))) = some 100 := by
  exact ⟨by decide, by decide⟩

/-- C5 (amended): a render error — before any recipient can have been
marked sent — is surfaced to the caller as HTTP 500 and the fingerprint
is not marked processed (no ProcessedRecord, no RecipientSet, no send
attempts; only the RequestRecord footprint remains), so a retry after
the window can succeed. Mail-transport errors, by contrast, are caught
and swallowed — see `C5_counterexample`. -/
theorem C5_render_error_not_processed (cfg : Config) (orc : Oracles) (st : ServerState)
    (now : Nat) (bj : Json)
    (hnn : bj ≠ .null)
    (h1 : lookupA st.recentRequests (bodySigOf cfg.secret (some bj)) = none)
    (h2 : lookupA st.sentRecords (bodySigOf cfg.secret (some bj)) = none)
    (hval : validBody bj = true)
    (hrender : orc.renderOk = false) :
    sendQuote cfg orc st now (some bj)
      = ⟨⟨500, false, false⟩,
         ⟨setA st.recentRequests (bodySigOf cfg.secret (some bj)) now,
          st.sentRecords, st.sentRecipients⟩, []⟩ := by
  simp only [sendQuote]
  rw [h1, h2]
  cases bj with
  | null => exact absurd rfl hnn
  | bool b => simp [hval, hrender]
  | num n => simp [hval, hrender]
  | str s => simp [hval, hrender]
  | arr xs => simp [hval, hrender]
  | obj fs => simp [hval, hrender]

set_option maxRecDepth 400000 in
/-- Concrete instance of `C5_render_error_not_processed`: a valid body,
fresh cache, render pipeline throwing. -/
theorem C5_render_error_witness :
    sendQuote ⟨"dev-download-secret", 15, some "a@x.com", "smtp@x.com"⟩
        ⟨false, fun _ => true⟩ ⟨[], [], []⟩ 100
        (some (.obj [("name", .str "N"), ("email", .str "b@y.com"),
          ("phone", .str "1"), ("products", .arr [.obj []])]))
      = ⟨⟨500, false, false⟩,
         ⟨setA [] (bodySigOf "dev-download-secret"
              (some (.obj [("name", .str "N"), ("email", .str "b@y.com"),
                ("phone", .str "1"), ("products", .arr [.obj []])]))) 100,
          [], []⟩, []⟩ :=
  C5_render_error_not_processed
    ⟨"dev-download-secret", 15, some "a@x.com", "smtp@x.com"⟩
    ⟨false, fun _ => true⟩ ⟨[], [], []⟩ 100
    (.obj [("name", .str "N"), ("email", .str "b@y.com"),
      ("phone", .str "1"), ("products", .arr [.obj []])])
    (fun h => Json.noConfusion h) rfl rfl (by decide) rfl

set_option maxRecDepth 400000 in
/-- C5 counterexample: the claim's mail-transport half is false — with a
valid request whose admin send throws (so NO recipient was ever marked
sent: the RecipientSet stays empty), the handler still responds HTTP 200
`success: true` and marks the fingerprint processed. -/
theorem C5_counterexample :
    (sendQuote ⟨"dev-download-secret", 15, some "a@x.com", "smtp@x.com"⟩
        ⟨true, fun _ => false⟩ ⟨[], [], []⟩ 100
        (some (.obj [("name", .str "N"), ("email", .str "a@x.com"),
          ("phone", .str "1"), ("products", .arr [.obj []])]))).resp
      = ⟨200, true, false⟩
    ∧ (sendQuote ⟨"dev-download-secret", 15, some "a@x.com", "smtp@x.com"⟩
        ⟨true, fun _ => false⟩ ⟨[], [], []⟩ 100
        (some (.obj [("name", .str "N"), ("email", .str "a@x.com"),
          ("phone", .str "1"), ("products", .arr [.obj []])]))).attempts
      = [("a@x.com", false)]
    ∧ lookupA (sendQuote ⟨"dev-download-secret", 15, some "a@x.com", "smtp@x.com"⟩
        ⟨true, fun _ => false⟩ ⟨[], [], []⟩ 100
        (some (.obj [("name", .str "N"), ("email", .str "a@x.com"),
          ("phone", .str "1"), ("products", .arr [.obj []])]))).state.sentRecords
        (bodySigOf "dev-download-secret"
          (some (.obj [("name", .str "N"), ("email", .str "a@x.com"),
            ("phone", .str "1"), ("products", .arr [.obj []])]))) = some 100
    ∧ lookupA (sendQuote ⟨"dev-download-secret", 15, some "a@x.com", "smtp@x.com"⟩
        ⟨true, fun _ => false⟩ ⟨[], [], []⟩ 100
        (some (.obj [("name", .str "N"), ("email", .str "a@x.com"),
          ("phone", .str "1"), ("products", .arr [.obj []])]))).state.sentRecipients
        (bodySigOf "dev-download-secret"
          (some (.obj [("name", .str "N"), ("email", .str "a@x.com"),
            ("phone", .str "1"), ("products", .arr [.obj []])]))) = some [] := by
  exact ⟨by decide, by decide, by decide, by decide⟩

end QuoteServer

namespace QuoteServer

/-! ## Map upsert lemmas and the duplicate short-circuit -/

theorem lookupA_append_single {α : Type} (m : List (String × α)) (k : String) (v : α)
    (h : lookupA m k = none) : lookupA (m ++ [(k, v)]) k = some v := by
  induction m with
  | nil =>
      unfold lookupA
      rw [List.nil_append,
        @List.find?_cons_of_pos _ (fun kv => kv.1 == k) (k, v) [] (by simp)]
  | cons hd tl ih =>
      have hhd : ¬ ((fun kv : String × α => kv.1 == k) hd = true) := by
        intro hx
        unfold lookupA at h
        rw [@List.find?_cons_of_pos _ (fun kv => kv.1 == k) hd tl hx] at h
        exact Option.noConfusion h
      have htl : lookupA tl k = none := by
        unfold lookupA at h ⊢
        rw [@List.find?_cons_of_neg _ (fun kv => kv.1 == k) hd tl hhd] at h
        exact h
      unfold lookupA at ih ⊢
      rw [List.cons_append,
        @List.find?_cons_of_neg _ (fun kv => kv.1 == k) hd (tl ++ [(k, v)]) hhd]
      exact ih htl

theorem lookupA_map_replace {α : Type} (m : List (String × α)) (k : String) (v : α)
    (h : (m.find? (fun kv => kv.1 == k)).isSome = true) :
    lookupA (m.map (fun kv => if kv.1 == k then (k, v) else kv)) k = some v := by
  induction m with
  | nil => simp at h
  | cons hd tl ih =>
      cases hx : hd.1 == k with
      | true =>
          unfold lookupA
          rw [List.map_cons, if_pos hx,
            @List.find?_cons_of_pos _ (fun kv => kv.1 == k) (k, v)
              (tl.map (fun kv => if kv.1 == k then (k, v) else kv)) (by simp)]
      | false =>
          have hneg : ¬ ((fun kv : String × α => kv.1 == k) hd = true) := by
            intro hc
            have hc2 : (hd.1 == k) = true := hc
            rw [hx] at hc2
            exact Bool.noConfusion hc2
          have h2 : (tl.find? (fun kv => kv.1 == k)).isSome = true := by
            rw [@List.find?_cons_of_neg _ (fun kv => kv.1 == k) hd tl hneg] at h
            exact h
          unfold lookupA at ih ⊢
          rw [List.map_cons, if_neg (by rw [hx]; exact Bool.noConfusion),
            @List.find?_cons_of_neg _ (fun kv => kv.1 == k) hd
              (tl.map (fun kv => if kv.1 == k then (k, v) else kv)) hneg]
          exact ih h2

theorem lookupA_setA_self {α : Type} (m : List (String × α)) (k : String) (v : α) :
    lookupA (setA m k v) k = some v := by
  unfold setA
  by_cases h : (m.find? (fun kv => kv.1 == k)).isSome = true
  · rw [if_pos h]
    exact lookupA_map_replace m k v h
  · rw [if_neg h]
    apply lookupA_append_single
    unfold lookupA
    cases hf : m.find? (fun kv => kv.1 == k) with
    | none => rfl
    | some kv =>
        rw [hf] at h
        simp at h

theorem withinWindow_true (W p n : Nat) (hp : p ≠ 0) (hle : p ≤ n) (h : n - p < W) :
    withinWindow W p n = true := by
  unfold withinWindow
  rw [Bool.and_eq_true]
  constructor
  · simpa using hp
  · rw [decide_eq_true_eq]
    omega

set_option maxHeartbeats 2000000 in
/-- Every path of `sendQuote` that passes the duplicate checks records
the request footprint (line 212) and never removes it. -/
theorem sendQuote_records_footprint (cfg : Config) (orc : Oracles) (st : ServerState)
    (now : Nat) (body : Option Json)
    (h1 : lookupA st.recentRequests (bodySigOf cfg.secret body) = none)
    (h2 : lookupA st.sentRecords (bodySigOf cfg.secret body) = none) :
    lookupA (sendQuote cfg orc st now body).state.recentRequests
      (bodySigOf cfg.secret body) = some now := by
  simp only [sendQuote]
  rw [h1, h2]
  cases body with
  | none => simp [lookupA_setA_self]
  | some bj =>
      cases bj <;> ((repeat' split) <;> simp_all [lookupA_setA_self])

end QuoteServer

namespace QuoteServer

/-- C2: submitting a body a second time while its fingerprint's
RequestRecord is within the duplicate window yields no additional send
attempts and no state change, and the second response is HTTP 202 with
success:true, duplicate:true (the first submission always records the
RequestRecord before validation, so this covers every first-run
outcome). -/
theorem C2_duplicate_suppressed (cfg : Config) (orc1 orc2 : Oracles) (st : ServerState)
    (now1 now2 : Nat) (body : Option Json)
    (h1 : lookupA st.recentRequests (bodySigOf cfg.secret body) = none)
    (h2 : lookupA st.sentRecords (bodySigOf cfg.secret body) = none)
    (hn : 0 < now1) (hle : now1 ≤ now2) (hwin : now2 - now1 < cfg.window) :
    sendQuote cfg orc2 (sendQuote cfg orc1 st now1 body).state now2 body
      = ⟨⟨202, true, true⟩, (sendQuote cfg orc1 st now1 body).state, []⟩ := by
  have hrec := sendQuote_records_footprint cfg orc1 st now1 body h1 h2
  set st1 := (sendQuote cfg orc1 st now1 body).state with hst1
  simp only [sendQuote]
  rw [hrec]
  simp [withinWindow_true cfg.window now1 now2 (by omega) hle hwin]

set_option maxRecDepth 400000 in
/-- Concrete instance of `C2_duplicate_suppressed`: a valid body
submitted at clock 100 and again at clock 105 with a 15-second
window. -/
theorem C2_duplicate_suppressed_witness :
    sendQuote ⟨"dev-download-secret", 15, some "a@x.com", "smtp@x.com"⟩
        ⟨true, fun _ => true⟩
        (sendQuote ⟨"dev-download-secret", 15, some "a@x.com", "smtp@x.com"⟩
          ⟨true, fun _ => true⟩ ⟨[], [], []⟩ 100
          (some (.obj [("name", .str "N"), ("email", .str "b@y.com"),
            ("phone", .str "1"), ("products", .arr [.obj []])]))).state
        105
        (some (.obj [("name", .str "N"), ("email", .str "b@y.com"),
          ("phone", .str "1"), ("products", .arr [.obj []])]))
      = ⟨⟨202, true, true⟩,
         (sendQuote ⟨"dev-download-secret", 15, some "a@x.com", "smtp@x.com"⟩
          ⟨true, fun _ => true⟩ ⟨[], [], []⟩ 100
          (some (.obj [("name", .str "N"), ("email", .str "b@y.com"),
            ("phone", .str "1"), ("products", .arr [.obj []])]))).state, []⟩ :=
  C2_duplicate_suppressed ⟨"dev-download-secret", 15, some "a@x.com", "smtp@x.com"⟩
    ⟨true, fun _ => true⟩ ⟨true, fun _ => true⟩ ⟨[], [], []⟩ 100 105
    (some (.obj [("name", .str "N"), ("email", .str "b@y.com"),
      ("phone", .str "1"), ("products", .arr [.obj []])]))
    rfl rfl (by omega) (by omega) (by decide)

end QuoteServer

namespace QuoteServer

set_option maxHeartbeats 2000000 in
/-- C4 (amended): with a distinct, not-yet-sent client email present,
the fingerprint is marked processed iff the admin loop completes without
a send error OR the client send succeeds; in particular a failed send on
one path does not block marking when the other path completes, but when
every send attempt errors the fingerprint is NOT marked processed. -/
theorem C4_processed_marking (cfg : Config) (orc : Oracles) (st : ServerState)
    (now : Nat) (fs : List (String × Json)) (ce : String)
    (h1 : lookupA st.recentRequests (bodySigOf cfg.secret (some (.obj fs))) = none)
    (h2 : lookupA st.sentRecords (bodySigOf cfg.secret (some (.obj fs))) = none)
    (hval : validBody (.obj fs) = true)
    (hrender : orc.renderOk = true)
    (hce : clientEmailOf (.obj fs) = some ce)
    (hner : ce ≠ receiverOf cfg)
    (hnoadmin : ce ∉ receiverListOf cfg)
    (hnotin : (recSetOf st (bodySigOf cfg.secret (some (.obj fs)))).contains ce = false) :
    ((lookupA (sendQuote cfg orc st now (some (.obj fs))).state.sentRecords
        (bodySigOf cfg.secret (some (.obj fs)))).isSome = true)
      ↔ ((∀ a ∈ (receiverListOf cfg).filter
            (fun r => !((recSetOf st (bodySigOf cfg.secret (some (.obj fs)))).contains r)),
          orc.sendOk a = true)
         ∨ orc.sendOk ce = true) := by
  have hcede : ce ∉ (receiverListOf cfg).filter
      (fun r => !((recSetOf st (bodySigOf cfg.secret (some (.obj fs)))).contains r)) :=
    fun hx => hnoadmin (List.mem_of_mem_filter hx)
  have hrs1 : (adminLoop orc.sendOk
      ((receiverListOf cfg).filter
        (fun r => !((recSetOf st (bodySigOf cfg.secret (some (.obj fs)))).contains r)))
      (recSetOf st (bodySigOf cfg.secret (some (.obj fs))))).1.contains ce = false := by
    rw [adminLoop_contains_of_not_mem orc.sendOk _ _ ce hcede]
    exact hnotin
  have hadm_iff := adminLoop_ok_iff orc.sendOk
    ((receiverListOf cfg).filter
      (fun r => !((recSetOf st (bodySigOf cfg.secret (some (.obj fs)))).contains r)))
    (recSetOf st (bodySigOf cfg.secret (some (.obj fs))))
  have hst1 : recSetOf ⟨setA st.recentRequests (bodySigOf cfg.secret (some (.obj fs))) now,
      st.sentRecords, st.sentRecipients⟩ (bodySigOf cfg.secret (some (.obj fs)))
      = recSetOf st (bodySigOf cfg.secret (some (.obj fs))) := rfl
  simp only [sendQuote]
  rw [h1, h2]
  simp only [hval, hrender, hce, Bool.not_true, Bool.false_eq_true, if_false,
    bne_iff_ne, ne_eq, hner, not_false_eq_true, if_true, hst1, hrs1, Bool.not_false]
  by_cases hadm : (adminLoop orc.sendOk
      ((receiverListOf cfg).filter
        (fun r => !((recSetOf st (bodySigOf cfg.secret (some (.obj fs)))).contains r)))
      (recSetOf st (bodySigOf cfg.secret (some (.obj fs))))).2.2 = true
  · by_cases hsend : orc.sendOk ce = true
    · simp only [hadm, hsend, if_true, lookupA_setA_self, Option.isSome_some]
      exact iff_of_true trivial (Or.inr trivial)
    · have hsendf : orc.sendOk ce = false := by
        cases hx : orc.sendOk ce with
        | false => rfl
        | true => exact absurd hx hsend
      simp only [hadm, hsendf, Bool.false_eq_true, if_false, if_true, lookupA_setA_self,
        Option.isSome_some]
      exact iff_of_true trivial (Or.inl (hadm_iff.mp hadm))
  · have hadmf : (adminLoop orc.sendOk
        ((receiverListOf cfg).filter
          (fun r => !((recSetOf st (bodySigOf cfg.secret (some (.obj fs)))).contains r)))
        (recSetOf st (bodySigOf cfg.secret (some (.obj fs))))).2.2 = false := by
      cases hx : (adminLoop orc.sendOk
        ((receiverListOf cfg).filter
          (fun r => !((recSetOf st (bodySigOf cfg.secret (some (.obj fs)))).contains r)))
        (recSetOf st (bodySigOf cfg.secret (some (.obj fs))))).2.2 with
      | false => rfl
      | true => exact absurd hx hadm
    by_cases hsend : orc.sendOk ce = true
    · simp only [hadmf, hsend, Bool.false_eq_true, if_false, if_true, lookupA_setA_self,
        Option.isSome_some]
      exact iff_of_true trivial (Or.inr trivial)
    · have hsendf : orc.sendOk ce = false := by
        cases hx : orc.sendOk ce with
        | false => rfl
        | true => exact absurd hx hsend
      simp only [hadmf, hsendf, Bool.false_eq_true, if_false, h2, Option.isSome_none]
      refine iff_of_false (fun h => h) ?_
      intro hor
      rcases hor with hall | hsok
      · exact absurd (hadm_iff.mpr hall) hadm
      · exact hsok
end QuoteServer

namespace QuoteServer

set_option maxRecDepth 400000 in
/-- Concrete instance of `C4_processed_marking`: the admin send fails
but the client send succeeds, and the fingerprint is still marked
processed. -/
theorem C4_processed_marking_witness :
    (lookupA (sendQuote ⟨"dev-download-secret", 15, some "a@x.com", "smtp@x.com"⟩
        ⟨true, fun a => a == "b@y.com"⟩ ⟨[], [], []⟩ 100
        (some (.obj [("name", .str "N"), ("email", .str "b@y.com"),
          ("phone", .str "1"), ("products", .arr [.obj []])]))).state.sentRecords
      (bodySigOf "dev-download-secret"
        (some (.obj [("name", .str "N"), ("email", .str "b@y.com"),
          ("phone", .str "1"), ("products", .arr [.obj []])])))).isSome = true :=
  (C4_processed_marking ⟨"dev-download-secret", 15, some "a@x.com", "smtp@x.com"⟩
    ⟨true, fun a => a == "b@y.com"⟩ ⟨[], [], []⟩ 100
    [("name", .str "N"), ("email", .str "b@y.com"),
      ("phone", .str "1"), ("products", .arr [.obj []])] "b@y.com"
    rfl rfl (by decide) rfl rfl (by decide) (by decide) (by decide)).mpr
    (Or.inr (by decide))

set_option maxRecDepth 400000 in
/-- C4 counterexample: when every send attempt errors (admin and
client), the fingerprint is NOT marked processed — sentRecords holds no
entry for it even though recipient handling completed and the handler
answered 200. -/
theorem C4_counterexample :
    lookupA (sendQuote ⟨"dev-download-secret", 15, some "a@x.com", "smtp@x.com"⟩
        ⟨true, fun _ => false⟩ ⟨[], [], []⟩ 100
        (some (.obj [("name", .str "N"), ("email", .str "b@y.com"),
          ("phone", .str "1"), ("products", .arr [.obj []])]))).state.sentRecords
      (bodySigOf "dev-download-secret"
        (some (.obj [("name", .str "N"), ("email", .str "b@y.com"),
          ("phone", .str "1"), ("products", .arr [.obj []])]))) = none
    ∧ (sendQuote ⟨"dev-download-secret", 15, some "a@x.com", "smtp@x.com"⟩
        ⟨true, fun _ => false⟩ ⟨[], [], []⟩ 100
        (some (.obj [("name", .str "N"), ("email", .str "b@y.com"),
          ("phone", .str "1"), ("products", .arr [.obj []])]))).attempts
      = [("a@x.com", false), ("b@y.com", false)]
    ∧ (sendQuote ⟨"dev-download-secret", 15, some "a@x.com", "smtp@x.com"⟩
        ⟨true, fun _ => false⟩ ⟨[], [], []⟩ 100
        (some (.obj [("name", .str "N"), ("email", .str "b@y.com"),
          ("phone", .str "1"), ("products", .arr [.obj []])]))).resp
      = ⟨200, true, false⟩ := by
  exact ⟨by decide, by decide, by decide⟩

end QuoteServer

namespace QuoteServer

set_option maxHeartbeats 2000000 in
/-- Along every path of the handler, no recipient receives a second
`sendMail` attempt after an attempt to it succeeded, provided the
configured admin list has no duplicate addresses. -/
theorem sendQuote_noResend (cfg : Config) (orc : Oracles) (st : ServerState) (now : Nat)
    (body : Option Json) (hnodup : (receiverListOf cfg).Nodup) :
    noResendAfterSuccessB (sendQuote cfg orc st now body).attempts = true := by
  simp only [sendQuote]
  split
  · rfl
  · split
    · rfl
    · split
      · rfl
      · rfl
      · split
        · rfl
        · split
          · rfl
          · split
            · -- client email present (some ce)
              split
              · -- ce differs from the raw receiver
                split
                · -- ce not yet in the recipient set
                  rename_i hcond
                  split
                  · -- client send succeeds: attempts ++ [(ce, true)]
                    refine noResend_append_one _ _ _
                      (noResend_of_nodup _
                        (adminLoop_attempts_nodup orc.sendOk _ _ (hnodup.filter _))) ?_
                    intro p hp hps hpe
                    obtain ⟨a, b⟩ := p
                    have hb : b = true := hps
                    have ha2 : a = _ := hpe
                    subst hb
                    subst ha2
                    have hcont := adminLoop_success_contains orc.sendOk _ _ _ hp
                    rw [hcont] at hcond
                    simp at hcond
                  · -- client send fails: attempts ++ [(ce, false)]
                    refine noResend_append_one _ _ _
                      (noResend_of_nodup _
                        (adminLoop_attempts_nodup orc.sendOk _ _ (hnodup.filter _))) ?_
                    intro p hp hps hpe
                    obtain ⟨a, b⟩ := p
                    have hb : b = true := hps
                    have ha2 : a = _ := hpe
                    subst hb
                    subst ha2
                    have hcont := adminLoop_success_contains orc.sendOk _ _ _ hp
                    rw [hcont] at hcond
                    simp at hcond
                · exact noResend_of_nodup _
                    (adminLoop_attempts_nodup orc.sendOk _ _ (hnodup.filter _))
              · exact noResend_of_nodup _
                  (adminLoop_attempts_nodup orc.sendOk _ _ (hnodup.filter _))
            · exact noResend_of_nodup _
                (adminLoop_attempts_nodup orc.sendOk _ _ (hnodup.filter _))

end QuoteServer

namespace QuoteServer

theorem not_mem_adminAttempts_of_recorded (sendOk : String → Bool)
    (rl rs : List String) (A : String) (hA : rs.contains A = true) :
    ∀ p ∈ (adminLoop sendOk (rl.filter (fun r => !(rs.contains r))) rs).2.1,
      p.1 ≠ A := by
  intro p hp hpe
  have hspec := adminLoop_attempts_spec sendOk _ _ p hp
  have hfil := List.of_mem_filter hspec.1
  have hfil2 : (!(rs.contains p.1)) = true := hfil
  rw [hpe, hA] at hfil2
  exact Bool.noConfusion hfil2

set_option maxHeartbeats 2000000 in
/-- Along every path of the handler, an address already present in the
fingerprint's RecipientSet receives no `sendMail` attempt at all. -/
theorem sendQuote_no_send_to_recorded (cfg : Config) (orc : Oracles) (st : ServerState)
    (now : Nat) (body : Option Json) (A : String)
    (hA : (recSetOf st (bodySigOf cfg.secret body)).contains A = true) :
    A ∉ ((sendQuote cfg orc st now body).attempts).map Prod.fst := by
  simp only [sendQuote]
  split
  · simp
  · split
    · simp
    · split
      · simp
      · simp
      · rename_i bj hbjne hdup1 hdup2
        split
        · simp
        · split
          · simp
          · split
            · -- client email present
              rename_i ce heq
              split
              · -- ce differs from the raw receiver
                split
                · -- ce not yet in the recipient set
                  rename_i hcond
                  split
                  · intro hmem
                    rcases List.mem_map.mp hmem with ⟨p, hp, hpa⟩
                    rcases List.mem_append.mp hp with hp | hp
                    · exact not_mem_adminAttempts_of_recorded orc.sendOk _ _ A hA p hp hpa
                    · have hceA : ce = A := by
                        rw [← hpa, List.mem_singleton.mp hp]
                      have hcond2 : (!(adminLoop orc.sendOk
                          ((receiverListOf cfg).filter (fun r =>
                            !((recSetOf st (bodySigOf cfg.secret (some bj))).contains r)))
                          (recSetOf st (bodySigOf cfg.secret (some bj)))).1.contains ce)
                          = true := hcond
                      rw [hceA, adminLoop_contains_mono orc.sendOk _ _ A hA] at hcond2
                      simp at hcond2
                  · intro hmem
                    rcases List.mem_map.mp hmem with ⟨p, hp, hpa⟩
                    rcases List.mem_append.mp hp with hp | hp
                    · exact not_mem_adminAttempts_of_recorded orc.sendOk _ _ A hA p hp hpa
                    · have hceA : ce = A := by
                        rw [← hpa, List.mem_singleton.mp hp]
                      have hcond2 : (!(adminLoop orc.sendOk
                          ((receiverListOf cfg).filter (fun r =>
                            !((recSetOf st (bodySigOf cfg.secret (some bj))).contains r)))
                          (recSetOf st (bodySigOf cfg.secret (some bj)))).1.contains ce)
                          = true := hcond
                      rw [hceA, adminLoop_contains_mono orc.sendOk _ _ A hA] at hcond2
                      simp at hcond2
                · intro hmem
                  rcases List.mem_map.mp hmem with ⟨p, hp, hpa⟩
                  exact not_mem_adminAttempts_of_recorded orc.sendOk _ _ A hA p hp hpa
              · intro hmem
                rcases List.mem_map.mp hmem with ⟨p, hp, hpa⟩
                exact not_mem_adminAttempts_of_recorded orc.sendOk _ _ A hA p hp hpa
            · intro hmem
              rcases List.mem_map.mp hmem with ⟨p, hp, hpa⟩
              exact not_mem_adminAttempts_of_recorded orc.sendOk _ _ A hA p hp hpa

end QuoteServer

namespace QuoteServer

set_option maxHeartbeats 2000000 in
/-- When the customer email equals the sole configured admin address and
its send succeeds, the request produces exactly one send attempt in
total. -/
theorem sendQuote_sole_admin_single_send (cfg : Config) (orc : Oracles) (st : ServerState)
    (now : Nat) (fs : List (String × Json)) (A : String)
    (h1 : lookupA st.recentRequests (bodySigOf cfg.secret (some (.obj fs))) = none)
    (h2 : lookupA st.sentRecords (bodySigOf cfg.secret (some (.obj fs))) = none)
    (hval : validBody (.obj fs) = true)
    (hrender : orc.renderOk = true)
    (hrecv : receiverListOf cfg = [A])
    (hce : clientEmailOf (.obj fs) = some A)
    (hsend : orc.sendOk A = true)
    (hnotin : (recSetOf st (bodySigOf cfg.secret (some (.obj fs)))).contains A = false) :
    (sendQuote cfg orc st now (some (.obj fs))).attempts = [(A, true)] := by
  have hst1 : recSetOf ⟨setA st.recentRequests (bodySigOf cfg.secret (some (.obj fs))) now,
      st.sentRecords, st.sentRecipients⟩ (bodySigOf cfg.secret (some (.obj fs)))
      = recSetOf st (bodySigOf cfg.secret (some (.obj fs))) := rfl
  simp only [sendQuote]
  rw [h1, h2]
  simp only [hval, hrender, hce, Bool.not_true, Bool.false_eq_true, if_false, if_true,
    hst1, hrecv]
  have hnotin2 : ¬ A ∈ recSetOf st (bodySigOf cfg.secret (some (.obj fs))) := by
    intro hm
    have he : (recSetOf st (bodySigOf cfg.secret (some (.obj fs)))).contains A = true :=
      List.elem_iff.mpr hm
    rw [he] at hnotin
    exact Bool.noConfusion hnotin
  rw [show List.filter (fun r =>
      !((recSetOf st (bodySigOf cfg.secret (some (.obj fs)))).contains r)) [A] = [A] from by
    simp [hnotin2]]
  rw [show adminLoop orc.sendOk [A] (recSetOf st (bodySigOf cfg.secret (some (.obj fs))))
      = (setAdd (recSetOf st (bodySigOf cfg.secret (some (.obj fs)))) A,
         [(A, true)], true) from by
    rw [adminLoop_cons, if_pos hsend]
    rfl]
  by_cases hrecv2 : A = receiverOf cfg
  · simp [hrecv2]
  · have hmem : A ∈ setAdd (recSetOf st (bodySigOf cfg.secret (some (.obj fs)))) A :=
      List.elem_iff.mp (setAdd_contains_self _ _)
    simp [bne_iff_ne, hrecv2, hmem]

/-- C1 (amended): provided the configured admin list has no duplicate
addresses, once an address is in the RecipientSet for a fingerprint no
further send attempt to that (fingerprint, address) pair is performed —
no attempt follows a successful attempt to the same address within a
request, and an address already recorded in the set receives no attempt
at all; in particular, when the customer email equals the sole
configured admin address, a fresh valid request produces exactly one
send in total. (With a duplicated admin address in RECEIVER_EMAIL the
code does resend — see `C1_counterexample`.) -/
theorem C1_at_most_once_per_recipient (cfg : Config) (orc : Oracles) (st : ServerState)
    (now : Nat) (body : Option Json)
    (hnodup : (receiverListOf cfg).Nodup) :
    noResendAfterSuccessB (sendQuote cfg orc st now body).attempts = true
    ∧ (∀ A, (recSetOf st (bodySigOf cfg.secret body)).contains A = true →
        A ∉ ((sendQuote cfg orc st now body).attempts).map Prod.fst)
    ∧ (∀ fs A, body = some (.obj fs) →
        lookupA st.recentRequests (bodySigOf cfg.secret (some (.obj fs))) = none →
        lookupA st.sentRecords (bodySigOf cfg.secret (some (.obj fs))) = none →
        validBody (.obj fs) = true →
        orc.renderOk = true →
        receiverListOf cfg = [A] →
        clientEmailOf (.obj fs) = some A →
        orc.sendOk A = true →
        (recSetOf st (bodySigOf cfg.secret (some (.obj fs)))).contains A = false →
        (sendQuote cfg orc st now (some (.obj fs))).attempts = [(A, true)]) :=
  ⟨sendQuote_noResend cfg orc st now body hnodup,
   fun A hA => sendQuote_no_send_to_recorded cfg orc st now body A hA,
   fun fs A _ h1 h2 hval hrender hrecv hce hsend hnotin =>
     sendQuote_sole_admin_single_send cfg orc st now fs A h1 h2 hval hrender hrecv hce
       hsend hnotin⟩

set_option maxRecDepth 400000 in
/-- Concrete instance of `C1_at_most_once_per_recipient`: customer email
equals the sole admin address; exactly one send happens. -/
theorem C1_at_most_once_witness :
    (sendQuote ⟨"dev-download-secret", 15, some "a@x.com", "smtp@x.com"⟩
        ⟨true, fun _ => true⟩ ⟨[], [], []⟩ 100
        (some (.obj [("name", .str "N"), ("email", .str "a@x.com"),
          ("phone", .str "1"), ("products", .arr [.obj []])]))).attempts
      = [("a@x.com", true)] :=
  (C1_at_most_once_per_recipient ⟨"dev-download-secret", 15, some "a@x.com", "smtp@x.com"⟩
      ⟨true, fun _ => true⟩ ⟨[], [], []⟩ 100
      (some (.obj [("name", .str "N"), ("email", .str "a@x.com"),
        ("phone", .str "1"), ("products", .arr [.obj []])]))
      (by decide)).2.2
    [("name", .str "N"), ("email", .str "a@x.com"),
      ("phone", .str "1"), ("products", .arr [.obj []])] "a@x.com"
    rfl rfl rfl (by decide) rfl (by decide) (by decide) (by decide) (by decide)

set_option maxRecDepth 400000 in
/-- C1 counterexample: with `RECEIVER_EMAIL` listing the same address
twice, the admin loop sends to that address a second time while its
RecipientSet entry (added by the first, successful send) exists. -/
theorem C1_counterexample :
    noResendAfterSuccessB (sendQuote
        ⟨"dev-download-secret", 15, some "a@x.com,a@x.com", "smtp@x.com"⟩
        ⟨true, fun _ => true⟩ ⟨[], [], []⟩ 100
        (some (.obj [("name", .str "N"), ("email", .str "b@y.com"),
          ("phone", .str "1"), ("products", .arr [.obj []])]))).attempts = false
    ∧ (sendQuote ⟨"dev-download-secret", 15, some "a@x.com,a@x.com", "smtp@x.com"⟩
        ⟨true, fun _ => true⟩ ⟨[], [], []⟩ 100
        (some (.obj [("name", .str "N"), ("email", .str "b@y.com"),
          ("phone", .str "1"), ("products", .arr [.obj []])]))).attempts
      = [("a@x.com", true), ("a@x.com", true), ("b@y.com", true)] := by
  exact ⟨by decide, by decide⟩

end QuoteServer
